import Mathlib

/-!
# Verification of the task persistence and list-aggregation core of `tasks.py`

This file is a shallow embedding of the core of the terminal todo application
`src/tasks.py`: the date engine (`parse_german_date`, `calculate_next_date`),
the task store (`_read_file`, `load_current_context`, `save_tasks`,
`get_list_file_path`), the ordering policy (`sort_tasks`), the recurrence
spawner (the toggle branch of `run_tui`) and the list directory
(`get_all_lists`, the command loop of `run_list_selection`).

Modelling conventions:
* Python strings are Lean `String`s; all character-level work is done on
  `List Char`.  Character classes (`isalnum`, `isdigit`, whitespace) are
  modelled at the ASCII level; the Python originals are unicode-aware, and
  the embedding is faithful on ASCII data.
* Python `None` for an optional string field, and the absence of the key in
  the stored JSON object, are both modelled as `Option.none`: `_read_file`
  conflates the two immediately on load, and every later access goes
  through `.get` or truthiness.
* Python dates are triples of naturals.  `date.strftime("%Y-%m-%d")` is
  modelled as zero-padded `YYYY-MM-DD` (the CPython behaviour for years
  with four digits; all dates in the claims have such years).
* Exceptions that a function catches and converts to a neutral result
  (`None`, `[]`) are modelled by returning that result on the same
  condition; the out-of-range condition of `datetime.date` arithmetic
  (years outside 1..9999) is modelled explicitly.
-/

namespace Tasks

open scoped List

/-! ## Character-level utilities -/

/-- ASCII decimal digit value of a character (`0`–`9`). -/
def digitVal (c : Char) : Nat := c.toNat - 48

/-- The character for a decimal digit (`0 ↦ '0'`, …, `9 ↦ '9'`). -/
def digitChar : Nat → Char
  | 0 => '0' | 1 => '1' | 2 => '2' | 3 => '3' | 4 => '4'
  | 5 => '5' | 6 => '6' | 7 => '7' | 8 => '8' | _ => '9'

/-- Whitespace as stripped by Python's `str.strip()` (ASCII fragment). -/
def isPySpace (c : Char) : Bool :=
  c = ' ' || c = '\t' || c = '\n' || c = '\r' || c = '\x0b' || c = '\x0c'

/-- Python `str.strip()`: drop leading and trailing whitespace. -/
def pyStrip (l : List Char) : List Char :=
  ((l.dropWhile isPySpace).reverse.dropWhile isPySpace).reverse

/-- Split a character list at every occurrence of `sep`
(the behaviour of Python `str.split(sep)` for a one-character separator). -/
def splitOnChar (sep : Char) : List Char → List (List Char)
  | [] => [[]]
  | c :: rest =>
    match splitOnChar sep rest with
    | [] => [[]]
    | h :: t => if c = sep then [] :: h :: t else (c :: h) :: t

/-- Numeric value of a list of decimal digits, most significant first. -/
def digitsVal : List Char → Nat
  | [] => 0
  | c :: rest => digitVal c * 10 ^ rest.length + digitsVal rest

/-- Digit run of a Python integer literal after the optional sign:
digits optionally separated by single underscores
(`int("1_0") = 10`, but no leading, trailing or doubled underscore). -/
def pyDigitsTail (acc : Nat) : List Char → Option Nat
  | [] => some acc
  | c :: rest =>
    if c.isDigit then pyDigitsTail (acc * 10 + digitVal c) rest
    else if c = '_' then
      match rest with
      | [] => none
      | c2 :: rest2 =>
        if c2.isDigit then pyDigitsTail (acc * 10 + digitVal c2) rest2 else none
    else none

/-- A nonempty digit run with optional underscore separators. -/
def pyDigits : List Char → Option Nat
  | [] => none
  | c :: rest => if c.isDigit then pyDigitsTail (digitVal c) rest else none

/-- Python `int(str)`: strip whitespace, optional single sign, digit run.
Returns `none` where Python raises `ValueError`. -/
def pyInt (l : List Char) : Option Int :=
  match pyStrip l with
  | [] => none
  | c :: rest =>
    if c = '+' then (pyDigits rest).map Int.ofNat
    else if c = '-' then (pyDigits rest).map (fun n => -(n : Int))
    else (pyDigits (c :: rest)).map Int.ofNat

/-! ## The civil calendar -/

/-- A calendar date. -/
structure YMD where
  year : Nat
  month : Nat
  day : Nat
deriving DecidableEq, Repr

/-- Gregorian leap year. -/
def isLeapYear (y : Nat) : Bool :=
  (y % 4 = 0 && y % 100 ≠ 0) || y % 400 = 0

/-- Length of a month. -/
def daysInMonth (y m : Nat) : Nat :=
  if m = 2 then (if isLeapYear y then 29 else 28)
  else if m = 4 || m = 6 || m = 9 || m = 11 then 30
  else 31

/-- Validity of a date for Python's `datetime.date`
(`MINYEAR = 1`, `MAXYEAR = 9999`). -/
def validYMD (y m d : Nat) : Bool :=
  1 ≤ y && y ≤ 9999 && 1 ≤ m && m ≤ 12 && 1 ≤ d && d ≤ daysInMonth y m

/-- Day number of a civil date (days since 0000-03-01, March-based;
Hinnant's `days_from_civil`, valid for `y ≥ 1`). -/
def daysFromCivil (x : YMD) : Nat :=
  let y := if x.month ≤ 2 then x.year - 1 else x.year
  let era := y / 400
  let yoe := y % 400
  let mp := (x.month + 9) % 12
  let doy := (153 * mp + 2) / 5 + (x.day - 1)
  let doe := yoe * 365 + yoe / 4 - yoe / 100 + doy
  era * 146097 + doe

/-- Civil date of a day number (Hinnant's `civil_from_days`). -/
def civilFromDays (z : Nat) : YMD :=
  let era := z / 146097
  let doe := z % 146097
  let yoe := (doe - doe / 1460 + doe / 36524 - doe / 146096) / 365
  let y := yoe + era * 400
  let doy := doe - (365 * yoe + yoe / 4 - yoe / 100)
  let mp := (5 * doy + 2) / 153
  let d := doy - (153 * mp + 2) / 5 + 1
  let m := if mp < 10 then mp + 3 else mp - 9
  ⟨if m ≤ 2 then y + 1 else y, m, d⟩

/-- Smallest day number of a Python `date` (0001-01-01). -/
def minRD : Nat := daysFromCivil ⟨1, 1, 1⟩

/-- Largest day number of a Python `date` (9999-12-31). -/
def maxRD : Nat := daysFromCivil ⟨9999, 12, 31⟩

/-- `k` decimal digits of `n`, zero padded, most significant first. -/
def padDigits : Nat → Nat → List Char
  | 0, _ => []
  | k + 1, n => digitChar (n / 10 ^ k) :: padDigits k (n % 10 ^ k)

/-- `date.strftime("%Y-%m-%d")`: the canonical textual date form. -/
def formatYMD (x : YMD) : String :=
  String.mk (padDigits 4 x.year ++ '-' :: (padDigits 2 x.month ++ '-' :: padDigits 2 x.day))

/-! ## `datetime.strptime(s, "%Y-%m-%d")`

CPython's `_strptime` matches `%Y` as exactly four digits and `%m`/`%d` as
one or two digits (value ranges 1–12 and 1–31), with literal dashes and a
full match, then validates the day against the calendar. -/

/-- A digit-group of length 1 to `maxLen` whose value lies in `1..hi`. -/
def fieldOK (l : List Char) (maxLen hi : Nat) : Bool :=
  decide (1 ≤ l.length) && decide (l.length ≤ maxLen) && l.all Char.isDigit &&
    decide (1 ≤ digitsVal l) && decide (digitsVal l ≤ hi)

/-- `datetime.strptime(s, "%Y-%m-%d")`, returning the parsed date, or
`none` where Python raises `ValueError`. -/
def strptimeYMD (l : List Char) : Option YMD :=
  match splitOnChar '-' l with
  | [y, m, d] =>
    if y.length = 4 && y.all Char.isDigit && fieldOK m 2 12 && fieldOK d 2 31 then
      if validYMD (digitsVal y) (digitsVal m) (digitsVal d) then
        some ⟨digitsVal y, digitsVal m, digitsVal d⟩
      else none
    else none
  | _ => none

/-! ## The date engine of `tasks.py` -/

/-- `datetime.date(year, month, day).strftime("%Y-%m-%d")` for possibly
negative components: the formatted date, or `none` where the constructor
raises `ValueError`. -/
def mkDateStr (y m d : Int) : Option String :=
  if 1 ≤ y && y ≤ 9999 && 1 ≤ m && m ≤ 12 && 1 ≤ d &&
      d ≤ (daysInMonth y.toNat m.toNat : Int) then
    some (formatYMD ⟨y.toNat, m.toNat, d.toNat⟩)
  else none

/-- `parse_german_date` (src/tasks.py lines 66–87).  `today` stands for
`date.today()`.  Returns the canonical (or, in the `strptime` branch,
verbatim) date string, or `none` for Python's `None`. -/
def parse_german_date (today : YMD) (s : String) : Option String :=
  if s = "" then none
  else
    match
      (if s.data.contains '-' && (s.data.count '-' = 2) then strptimeYMD s.data else none)
    with
    | some _ => some s
    | none =>
      match splitOnChar '.' (pyStrip s.data) with
      | [p0, p1] =>
        match pyInt p0, pyInt p1 with
        | some day, some month =>
          let year : Int :=
            if month < (today.month : Int) ||
                (month = (today.month : Int) && day < (today.day : Int)) then
              (today.year : Int) + 1
            else (today.year : Int)
          mkDateStr year month day
        | _, _ => none
      | [p0, p1, p2] =>
        match pyInt p0, pyInt p1, pyInt p2 with
        | some day, some month, some yearIn =>
          let year : Int := if yearIn < 100 then yearIn + 2000 else yearIn
          mkDateStr year month day
        | _, _, _ => none
      | _ => none

/-- Python truthiness of an optional string: `None` and `""` are falsy. -/
def truthyStr (o : Option String) : Bool :=
  match o with
  | none => false
  | some s => !(s = "")

/-- `date + timedelta(days=n)` re-formatted, or `none` where the result
falls outside Python's year range 1..9999 (an `OverflowError` that
`calculate_next_date` catches). -/
def addDaysChecked (x : YMD) (n : Int) : Option String :=
  let rd : Int := (daysFromCivil x : Int) + n
  if (minRD : Int) ≤ rd && rd ≤ (maxRD : Int) then
    some (formatYMD (civilFromDays rd.toNat))
  else none

/-- `calculate_next_date` (src/tasks.py lines 102–117).  The arguments are
the `due` and `recurrence` dictionary entries (possibly `None`). -/
def calculate_next_date (date_str recurrence : Option String) : Option String :=
  if !truthyStr date_str || !truthyStr recurrence then none
  else
    match strptimeYMD (date_str.getD "").data with
    | none => none
    | some x =>
      let rc := (recurrence.getD "").data
      let unit := ((rc.getLast?).getD ' ').toLower
      let valStr := rc.dropLast
      let val : Int := if valStr.isEmpty then 1 else (pyInt valStr).getD 1
      if unit = 'd' then addDaysChecked x val
      else if unit = 'w' then addDaysChecked x (7 * val)
      else none

/-! ## The task record

A task is the JSON object stored in a list file / held in memory.  `title`
and `done` are always present in the data the application writes and the
claims range over; `priority`, `due`, `recurrence` and the view-only
`_origin` tag may be absent (`none`). -/

structure Task where
  title : String
  done : Bool
  priority : Option Int
  due : Option String
  recurrence : Option String
  origin : Option String
deriving DecidableEq, Repr

/-- The due-field normalization performed by `_read_file` on each record:
if the value is a truthy string containing a dot, try `parse_german_date`
and keep the result when it succeeds. -/
def readDue (today : YMD) (d : Option String) : Option String :=
  match d with
  | none => none
  | some s =>
    if s ≠ "" && s.data.contains '.' then
      match parse_german_date today s with
      | some clean => some clean
      | none => some s
    else some s

/-- Per-record part of `_read_file` (src/tasks.py lines 214–221): default a
missing `priority` to 1, materialize missing `due`/`recurrence` as absent,
and normalize a legacy dotted due date. -/
def readTask (today : YMD) (t : Task) : Task :=
  { t with priority := some (t.priority.getD 1), due := readDue today t.due }

/-- Content of one storage file: `none` models content on which
`json.load` (or the subsequent record loop) raises, `some ts` a
well-formed task array. -/
abbrev FileContent := Option (List Task)

/-- The data directory: one entry per existing `*.json` file, keyed by the
file name stem, in globbing order. -/
abbrev FS := List (String × Option (List Task))

/-- Content of the file named `k`, or `none` if no such file exists. -/
def lookupFS : FS → String → Option (Option (List Task))
  | [], _ => none
  | e :: rest, k => if e.1 = k then some e.2 else lookupFS rest k

/-- `_write_file`: (re)write file `k` with the given tasks. -/
def setFS : FS → String → List Task → FS
  | [], k, v => [(k, some v)]
  | e :: rest, k, v => if e.1 = k then (e.1, some v) :: rest else e :: setFS rest k v

/-- `_read_file` (src/tasks.py lines 209–223) applied to the result of a
lookup: a missing file or malformed content yields the empty collection,
otherwise every record is defaulted and normalized. -/
def read_file (today : YMD) (c : Option (Option (List Task))) : List Task :=
  match c with
  | none => []
  | some none => []
  | some (some ts) => ts.map (readTask today)

/-- File name stem derived by `get_list_file_path` (src/tasks.py lines
204–207): keep alphanumerics, space, hyphen, underscore; strip; default. -/
def get_list_file_stem (name : String) : String :=
  let kept := name.data.filter (fun c => c.isAlphanum || c = ' ' || c = '-' || c = '_')
  let safe := pyStrip kept
  if safe.isEmpty then "default" else String.mk safe

/-- The `_origin` used when partitioning the aggregate view:
`task.get('_origin', 'tasks')`. -/
def originKey (t : Task) : String := t.origin.getD "tasks"

/-- Drop the `_origin` key before writing a record to disk. -/
def stripOrigin (t : Task) : Task := { t with origin := none }

/-- `load_current_context` (src/tasks.py lines 225–239) for the aggregate
(`"ALLE"`) context: read every list file and stamp each task's `_origin`
with the file's name stem. -/
def loadAll (today : YMD) (fs : FS) : List Task :=
  fs.flatMap (fun e =>
    (read_file today (some e.2)).map (fun t => { t with origin := some e.1 }))

/-- `load_current_context` for a single named list. -/
def loadSingle (today : YMD) (fs : FS) (name : String) : List Task :=
  read_file today (lookupFS fs (get_list_file_stem name))

/-- `load_current_context` for an arbitrary context. -/
def load_current_context (today : YMD) (fs : FS) (name : String) : List Task :=
  if name = "ALLE" then loadAll today fs else loadSingle today fs name

/-- Append a record to the bucket of key `k` in the insertion-ordered
dictionary `tasks_by_origin` (creating the bucket at the end if new). -/
def bucketsAdd (bs : List (String × List Task)) (k : String) (t : Task) :
    List (String × List Task) :=
  match bs with
  | [] => [(k, [t])]
  | e :: rest => if e.1 = k then (e.1, e.2 ++ [t]) :: rest else e :: bucketsAdd rest k t

/-- The `tasks_by_origin` dictionary of `save_tasks`: seeded with an empty
bucket per existing file, then each task (with `_origin` stripped) appended
to the bucket of its origin. -/
def bucketsOf (fs : FS) (tasks : List Task) : List (String × List Task) :=
  tasks.foldl (fun bs t => bucketsAdd bs (originKey t) (stripOrigin t))
    (fs.map (fun e => (e.1, [])))

/-- `save_tasks` (src/tasks.py lines 241–261) in aggregate mode: partition
by origin and rewrite every affected file (every pre-existing file is
seeded, hence rewritten). -/
def save_tasks_all (fs : FS) (tasks : List Task) : FS :=
  (bucketsOf fs tasks).foldl (fun acc e => setFS acc (get_list_file_stem e.1) e.2) fs

/-- `save_tasks` in single-list mode: rewrite the list's file with the
collection verbatim. -/
def save_tasks_single (fs : FS) (name : String) (tasks : List Task) : FS :=
  setFS fs (get_list_file_stem name) tasks

/-- `save_tasks`, dispatching on `virtual_all_mode`. -/
def save_tasks (fs : FS) (name : String) (virtualAll : Bool) (tasks : List Task) : FS :=
  if virtualAll then save_tasks_all fs tasks else save_tasks_single fs name tasks

/-! ## Ordering policy -/

/-- Python string `<`: lexicographic comparison by code point. -/
def charListLt : List Char → List Char → Bool
  | [], [] => false
  | [], _ :: _ => true
  | _ :: _, [] => false
  | a :: as, b :: bs => a < b || (a = b && charListLt as bs)

/-- Python string `<` on `String`. -/
def strLtB (a b : String) : Bool := charListLt a.data b.data

/-- The `due` component of the sort key:
`x['due'] if x['due'] else "9999-12-31"` (truthiness: `None` and `""`
both fall back to the maximal canonical date string). -/
def dueKey (t : Task) : String :=
  match t.due with
  | some s => if s = "" then "9999-12-31" else s
  | none => "9999-12-31"

/-- Lexicographic comparison of the Python key tuples
`(x['done'], due-or-max, -x.get('priority', 1))` of two tasks
(`False < True` for booleans). -/
def taskLE (a b : Task) : Bool :=
  (!a.done && b.done) ||
    (a.done = b.done &&
      (strLtB (dueKey a) (dueKey b) ||
        (dueKey a = dueKey b &&
          decide (-(a.priority.getD 1) ≤ -(b.priority.getD 1)))))

/-- `sort_tasks` (src/tasks.py lines 307–312).  Python `list.sort(key=…)`
is the stable ascending sort by the key tuple; a stable sort by a total
preorder has a unique result, and `List.insertionSort` realizes it. -/
def sort_tasks (l : List Task) : List Task :=
  l.insertionSort (fun a b => taskLE a b = true)

/-! ## Recurrence spawner -/

/-- The toggle branch of `run_tui` (src/tasks.py lines 651–665): flip
`done` in place; when the flip completes a task that has a truthy
recurrence and due date and the next occurrence resolves, append a copy
with `done := false` and the new due date. -/
def toggle_task (tasks : List Task) (i : Nat) : List Task :=
  match tasks[i]? with
  | none => tasks
  | some t =>
    let t' := { t with done := !t.done }
    let ts := tasks.set i t'
    if t'.done && truthyStr t'.recurrence && truthyStr t'.due then
      match calculate_next_date t'.due t'.recurrence with
      | some newDue => ts ++ [{ t' with done := false, due := some newDue }]
      | none => ts
    else ts

/-! ## List directory -/

/-- Python string `<=` (for `sorted` on deduplicated names this agrees
with sorting by `<`). -/
def strLeB (a b : String) : Bool := !(strLtB b a)

/-- `get_all_lists` (src/tasks.py lines 267–275): the file name stems,
with `"tasks"` always present and moved to the front of the otherwise
sorted, deduplicated listing. -/
def get_all_lists (fs : FS) : List String :=
  let names0 := fs.map (fun e => e.1)
  let names1 := if names0.contains "tasks" then names0 else "tasks" :: names0
  let names2 := (names1.dedup).insertionSort (fun a b => strLeB a b = true)
  if names2.contains "tasks" then "tasks" :: names2.erase "tasks" else names2

/-- The mutable session state of `TodoApp` that the list-selection dialog
touches. -/
structure AppState where
  fs : FS
  current_list_name : String
  virtual_all_mode : Bool
  tasks : List Task
deriving DecidableEq

/-- The commands of the list-selection dialog `run_list_selection`
(src/tasks.py lines 595–640).  `navUp`/`navDown` move the menu cursor,
`openIdx i` is Enter/Space on menu entry `i` (entry 0 is `"ALLE"`),
`newList s` is `[N]` with the entered name, `cancel` is Esc/`q`/`l`. -/
inductive SelCmd where
  | navUp
  | navDown
  | openIdx (i : Nat)
  | newList (s : String)
  | cancel
deriving DecidableEq

/-- One command of `run_list_selection`, as a transition on the session
state.  Cursor movement does not touch the state modelled here.  Opening
entry `i` repoints the context and reloads; creating a new list keeps
only the alphanumeric characters of the name, and — when that is
nonempty — empties the working collection and saves (with the *stale*
`virtual_all_mode` flag, exactly as the source does). -/
def run_list_selection_step (today : YMD) (s : AppState) (c : SelCmd) : AppState :=
  match c with
  | .navUp => s
  | .navDown => s
  | .cancel => s
  | .openIdx i =>
    let menu := "ALLE" :: get_all_lists s.fs
    if h : i < menu.length then
      let nm := menu.get ⟨i, h⟩
      { s with
        current_list_name := nm
        virtual_all_mode := nm = "ALLE"
        tasks := load_current_context today s.fs nm }
    else s
  | .newList nm =>
    if nm = "" then s
    else
      let safe := pyStrip (nm.data.filter Char.isAlphanum)
      if safe.isEmpty then s
      else
        let listName := String.mk safe
        { s with
          current_list_name := listName
          tasks := []
          fs := save_tasks s.fs listName s.virtual_all_mode [] }

/-! ## Order-theoretic facts about the sort comparison -/

theorem charListLt_irrefl : ∀ l, charListLt l l = false
  | [] => rfl
  | c :: rest => by
    simp [charListLt, charListLt_irrefl rest]

theorem charListLt_iff_lex : ∀ l₁ l₂, charListLt l₁ l₂ = true ↔ List.Lex (· < ·) l₁ l₂
  | [], [] => by
    constructor
    · intro h; simp [charListLt] at h
    · intro h; cases h
  | [], _ :: _ => by
    constructor
    · intro _; exact List.Lex.nil
    · intro _; rfl
  | _ :: _, [] => by
    constructor
    · intro h; simp [charListLt] at h
    · intro h; cases h
  | a :: as, b :: bs => by
    simp only [charListLt, Bool.or_eq_true, Bool.and_eq_true, decide_eq_true_eq]
    constructor
    · rintro (h | ⟨rfl, h⟩)
      · exact List.Lex.rel h
      · exact List.Lex.cons ((charListLt_iff_lex as bs).1 h)
    · intro h
      cases h with
      | cons h => exact Or.inr ⟨rfl, (charListLt_iff_lex as bs).2 h⟩
      | rel h => exact Or.inl h

/-- The priority with its `.get('priority', 1)` default. -/
def prioOf (t : Task) : Int := t.priority.getD 1

/-- The sort key of a task, as an element of a lexicographic linear order. -/
def keyOf (t : Task) : Bool ×ₗ ((List Char) ×ₗ Int) :=
  toLex (t.done, toLex ((dueKey t).data, -(prioOf t)))

theorem taskLE_iff (a b : Task) : taskLE a b = true ↔ keyOf a ≤ keyOf b := by
  rw [keyOf, keyOf, Prod.Lex.le_iff, Prod.Lex.le_iff]
  simp only [taskLE, Bool.or_eq_true, Bool.and_eq_true, decide_eq_true_eq, Bool.lt_iff,
    Bool.and_eq_true, Bool.not_eq_true']
  constructor
  · rintro (⟨h1, h2⟩ | ⟨h1, h2 | ⟨h2, h3⟩⟩)
    · exact Or.inl ⟨h1, h2⟩
    · exact Or.inr ⟨h1, Or.inl ((charListLt_iff_lex _ _).1 h2)⟩
    · exact Or.inr ⟨h1, Or.inr ⟨congrArg String.data h2, h3⟩⟩
  · rintro (⟨h1, h2⟩ | ⟨h1, h2 | ⟨h2, h3⟩⟩)
    · exact Or.inl ⟨h1, h2⟩
    · exact Or.inr ⟨h1, Or.inl ((charListLt_iff_lex _ _).2 h2)⟩
    · exact Or.inr ⟨h1, Or.inr ⟨String.ext h2, h3⟩⟩

theorem taskLE_trans {a b c : Task} (h1 : taskLE a b = true) (h2 : taskLE b c = true) :
    taskLE a c = true :=
  (taskLE_iff a c).2 (le_trans ((taskLE_iff a b).1 h1) ((taskLE_iff b c).1 h2))

theorem taskLE_total (a b : Task) : taskLE a b = true ∨ taskLE b a = true := by
  rcases le_total (keyOf a) (keyOf b) with h | h
  · exact Or.inl ((taskLE_iff a b).2 h)
  · exact Or.inr ((taskLE_iff b a).2 h)

theorem taskLE_of_key_eq {a b : Task} (h1 : a.done = b.done) (h2 : dueKey a = dueKey b)
    (h3 : prioOf a = prioOf b) : taskLE a b = true := by
  simp [taskLE, h1, h2, prioOf] at h3 ⊢
  simp [h3]

/-! ## Decimal strings -/

theorem length_padDigits : ∀ k n, (padDigits k n).length = k
  | 0, _ => rfl
  | k + 1, n => by simp [padDigits, length_padDigits k]

theorem digitChar_isDigit : ∀ n, (digitChar n).isDigit = true
  | 0 => rfl
  | 1 => rfl
  | 2 => rfl
  | 3 => rfl
  | 4 => rfl
  | 5 => rfl
  | 6 => rfl
  | 7 => rfl
  | 8 => rfl
  | _ + 9 => rfl

theorem padDigits_isDigit : ∀ k n, ∀ c ∈ padDigits k n, c.isDigit = true
  | 0, _ => by intro c hc; cases hc
  | k + 1, n => by
    intro c hc
    rcases List.mem_cons.1 hc with rfl | hc
    · exact digitChar_isDigit _
    · exact padDigits_isDigit k _ c hc

theorem digitVal_digitChar {n : Nat} (h : n ≤ 9) : digitVal (digitChar n) = n := by
  interval_cases n <;> rfl

theorem digitChar_lt_iff {n m : Nat} (hn : n ≤ 9) (hm : m ≤ 9) :
    digitChar n < digitChar m ↔ n < m := by
  interval_cases n <;> interval_cases m <;> decide

theorem digitChar_inj_iff {n m : Nat} (hn : n ≤ 9) (hm : m ≤ 9) :
    digitChar n = digitChar m ↔ n = m := by
  interval_cases n <;> interval_cases m <;> decide

theorem div_mod_lt_iff (b n m : Nat) (hb : 0 < b) :
    n < m ↔ (n / b < m / b ∨ (n / b = m / b ∧ n % b < m % b)) := by
  constructor
  · intro h
    rcases Nat.lt_trichotomy (n / b) (m / b) with h' | h' | h'
    · exact Or.inl h'
    · right
      refine ⟨h', ?_⟩
      have h1 : b * (m / b) + n % b = n := by rw [← h']; exact Nat.div_add_mod n b
      have h2 : b * (m / b) + m % b = m := Nat.div_add_mod m b
      have h3 : b * (m / b) + n % b < b * (m / b) + m % b := by rw [h1, h2]; exact h
      exact Nat.lt_of_add_lt_add_left h3
    · exact absurd (Nat.div_le_div_right (Nat.le_of_lt h)) (Nat.not_le_of_lt h')
  · intro h
    rcases h with h | ⟨he, hr⟩
    · have h1 := Nat.div_add_mod n b
      have h2 := Nat.div_add_mod m b
      have hmod := Nat.mod_lt n hb
      calc n = b * (n / b) + n % b := h1.symm
        _ < b * (n / b) + b := Nat.add_lt_add_left hmod _
        _ = b * (n / b + 1) := by ring
        _ ≤ b * (m / b) := Nat.mul_le_mul_left b h
        _ ≤ b * (m / b) + m % b := Nat.le_add_right _ _
        _ = m := h2
    · have h1 : b * (n / b) + n % b = n := Nat.div_add_mod n b
      have h2 : b * (n / b) + m % b = m := by rw [he]; exact Nat.div_add_mod m b
      rw [← h1, ← h2]
      exact Nat.add_lt_add_left hr _

theorem digitsVal_padDigits : ∀ k n, n < 10 ^ k → digitsVal (padDigits k n) = n
  | 0, n, h => by
    interval_cases n
    rfl
  | k + 1, n, h => by
    have hp : 0 < 10 ^ k := Nat.pos_pow_of_pos k (by norm_num)
    have h10 : n < 10 * 10 ^ k := by rw [← pow_succ']; exact h
    have hq : n / 10 ^ k ≤ 9 := by
      have := (Nat.div_lt_iff_lt_mul hp).2 h10
      omega
    have hr : n % 10 ^ k < 10 ^ k := Nat.mod_lt _ hp
    simp only [padDigits, digitsVal, length_padDigits, digitVal_digitChar hq,
      digitsVal_padDigits k _ hr]
    calc n / 10 ^ k * 10 ^ k + n % 10 ^ k = 10 ^ k * (n / 10 ^ k) + n % 10 ^ k := by ring
      _ = n := Nat.div_add_mod n (10 ^ k)

theorem charListLt_padDigits : ∀ k n m, n < 10 ^ k → m < 10 ^ k →
    (charListLt (padDigits k n) (padDigits k m) = true ↔ n < m)
  | 0, n, m, hn, hm => by
    interval_cases n
    interval_cases m
    simp [padDigits, charListLt]
  | k + 1, n, m, hn, hm => by
    have hp : 0 < 10 ^ k := Nat.pos_pow_of_pos k (by norm_num)
    have h10n : n < 10 * 10 ^ k := by rw [← pow_succ']; exact hn
    have h10m : m < 10 * 10 ^ k := by rw [← pow_succ']; exact hm
    have hqn : n / 10 ^ k ≤ 9 := by
      have := (Nat.div_lt_iff_lt_mul hp).2 h10n
      omega
    have hqm : m / 10 ^ k ≤ 9 := by
      have := (Nat.div_lt_iff_lt_mul hp).2 h10m
      omega
    have hrn : n % 10 ^ k < 10 ^ k := Nat.mod_lt _ hp
    have hrm : m % 10 ^ k < 10 ^ k := Nat.mod_lt _ hp
    simp only [padDigits, charListLt, Bool.or_eq_true, Bool.and_eq_true, decide_eq_true_eq]
    rw [charListLt_padDigits k _ _ hrn hrm, digitChar_lt_iff hqn hqm,
      digitChar_inj_iff hqn hqm]
    exact (div_mod_lt_iff (10 ^ k) n m hp).symm

theorem padDigits_inj {k n m : Nat} (hn : n < 10 ^ k) (hm : m < 10 ^ k)
    (h : padDigits k n = padDigits k m) : n = m := by
  rw [← digitsVal_padDigits k n hn, ← digitsVal_padDigits k m hm, h]

/-! ## Splitting lemmas -/

theorem splitOnChar_ne_nil (sep : Char) : ∀ l, splitOnChar sep l ≠ []
  | [] => by simp [splitOnChar]
  | c :: rest => by
    cases hsplit : splitOnChar sep rest with
    | nil => exact absurd hsplit (splitOnChar_ne_nil sep rest)
    | cons h t =>
      by_cases hc : c = sep <;> simp [splitOnChar, hsplit, hc]

theorem splitOnChar_of_not_mem {sep : Char} : ∀ {l}, sep ∉ l → splitOnChar sep l = [l]
  | [], _ => rfl
  | c :: rest, h => by
    have hc : ¬ c = sep := fun e => h (e ▸ List.mem_cons_self c rest)
    have hr : sep ∉ rest := fun e => h (List.mem_cons_of_mem c e)
    simp [splitOnChar, splitOnChar_of_not_mem hr, hc]

theorem splitOnChar_append {sep : Char} :
    ∀ {p} (rest), sep ∉ p → splitOnChar sep (p ++ sep :: rest) = p :: splitOnChar sep rest
  | [], rest, _ => by
    cases hsplit : splitOnChar sep rest with
    | nil => exact absurd hsplit (splitOnChar_ne_nil sep rest)
    | cons h t => simp [splitOnChar, hsplit]
  | c :: p, rest, h => by
    have hc : ¬ c = sep := fun e => h (e ▸ List.mem_cons_self c p)
    have hp : sep ∉ p := fun e => h (List.mem_cons_of_mem c e)
    cases hsplit : splitOnChar sep (p ++ sep :: rest) with
    | nil => exact absurd hsplit (splitOnChar_ne_nil sep _)
    | cons h2 t2 =>
      have := splitOnChar_append (p := p) rest hp
      rw [hsplit] at this
      cases this
      simp [splitOnChar, hsplit, hc]

/-- Joining with a separator, the inverse of `splitOnChar`. -/
def joinParts (sep : Char) : List (List Char) → List Char
  | [] => []
  | [p] => p
  | p :: ps => p ++ sep :: joinParts sep ps

theorem joinParts_cons (sep : Char) (p : List Char) (h : List Char) (t : List (List Char)) :
    joinParts sep (p :: h :: t) = p ++ sep :: joinParts sep (h :: t) := rfl

theorem splitOnChar_cons (sep c : Char) (rest : List Char) {h : List Char}
    {t : List (List Char)} (hsplit : splitOnChar sep rest = h :: t) :
    splitOnChar sep (c :: rest) = if c = sep then [] :: h :: t else (c :: h) :: t := by
  unfold splitOnChar
  rw [hsplit]

theorem splitOnChar_reconstruct (sep : Char) : ∀ l, joinParts sep (splitOnChar sep l) = l
  | [] => rfl
  | c :: rest => by
    cases hsplit : splitOnChar sep rest with
    | nil => exact absurd hsplit (splitOnChar_ne_nil sep rest)
    | cons h t =>
      have hrec := splitOnChar_reconstruct sep rest
      rw [hsplit] at hrec
      rw [splitOnChar_cons sep c rest hsplit]
      by_cases hc : c = sep
      · rw [if_pos hc, joinParts_cons, hrec, List.nil_append, hc]
      · rw [if_neg hc]
        cases t with
        | nil => simpa [joinParts] using congrArg (c :: ·) hrec
        | cons h2 t2 => simpa [joinParts_cons] using congrArg (c :: ·) hrec

theorem not_mem_of_mem_splitOnChar (sep : Char) :
    ∀ l p, p ∈ splitOnChar sep l → sep ∉ p
  | [], p, hp => by
    simp [splitOnChar] at hp
    simp [hp]
  | c :: rest, p, hp => by
    cases hsplit : splitOnChar sep rest with
    | nil => exact absurd hsplit (splitOnChar_ne_nil sep rest)
    | cons h t =>
      rw [splitOnChar_cons sep c rest hsplit] at hp
      by_cases hc : c = sep
      · rw [if_pos hc] at hp
        rcases List.mem_cons.1 hp with rfl | hp
        · simp
        · exact not_mem_of_mem_splitOnChar sep rest p (hsplit ▸ hp)
      · rw [if_neg hc] at hp
        rcases List.mem_cons.1 hp with rfl | hp
        · intro hmem
          rcases List.mem_cons.1 hmem with rfl | hmem
          · exact hc rfl
          · exact not_mem_of_mem_splitOnChar sep rest h
              (hsplit ▸ List.mem_cons_self h t) hmem
        · exact not_mem_of_mem_splitOnChar sep rest p (hsplit ▸ List.mem_cons_of_mem h hp)

/-! ## Comparison and round-trip facts about `formatYMD` -/

theorem daysInMonth_le_31 (y m : Nat) : daysInMonth y m ≤ 31 := by
  unfold daysInMonth
  split_ifs <;> omega

theorem validYMD_bounds {y m d : Nat} (h : validYMD y m d = true) :
    1 ≤ y ∧ y < 10000 ∧ 1 ≤ m ∧ m < 100 ∧ m ≤ 12 ∧ 1 ≤ d ∧ d < 100 ∧ d ≤ 31 := by
  have hdim := daysInMonth_le_31 y m
  simp only [validYMD, Bool.and_eq_true, decide_eq_true_eq] at h
  omega

theorem padDigits_eq_iff {k n m : Nat} (hn : n < 10 ^ k) (hm : m < 10 ^ k) :
    padDigits k n = padDigits k m ↔ n = m :=
  ⟨padDigits_inj hn hm, fun h => h ▸ rfl⟩

theorem charListLt_cons_same (c : Char) (l1 l2 : List Char) :
    charListLt (c :: l1) (c :: l2) = charListLt l1 l2 := by
  simp [charListLt]

theorem charListLt_append : ∀ (p1 p2 r1 r2 : List Char), p1.length = p2.length →
    charListLt (p1 ++ r1) (p2 ++ r2) =
      (charListLt p1 p2 || (p1 = p2 && charListLt r1 r2))
  | [], [], r1, r2, _ => by simp [charListLt]
  | [], _ :: _, _, _, h => by simp at h
  | _ :: _, [], _, _, h => by simp at h
  | a :: as, b :: bs, r1, r2, h => by
    simp only [List.cons_append]
    by_cases hab : a < b
    · simp [charListLt, hab]
    · by_cases heq : a = b
      · subst heq
        rw [charListLt_cons_same, charListLt_cons_same,
          charListLt_append as bs r1 r2 (by simpa using h)]
        by_cases hasbs : as = bs
        · simp [charListLt, hasbs, lt_irrefl]
        · simp [charListLt, hasbs, lt_irrefl]
      · simp [charListLt, hab, heq]

/-- Chronological comparison of dates — the claim-side reading of
"ordered by due date". -/
def ymdLt (x y : YMD) : Prop :=
  x.year < y.year ∨
    (x.year = y.year ∧ (x.month < y.month ∨ (x.month = y.month ∧ x.day < y.day)))

theorem charListLt_formatYMD {x y : YMD} (hx : validYMD x.year x.month x.day = true)
    (hy : validYMD y.year y.month y.day = true) :
    (charListLt (formatYMD x).data (formatYMD y).data = true) ↔ ymdLt x y := by
  obtain ⟨_, hxy, _, hxm, _, _, hxd, _⟩ := validYMD_bounds hx
  obtain ⟨_, hyy, _, hym, _, _, hyd, _⟩ := validYMD_bounds hy
  have hxy4 : x.year < 10 ^ 4 := by norm_num; omega
  have hyy4 : y.year < 10 ^ 4 := by norm_num; omega
  have hxm2 : x.month < 10 ^ 2 := by norm_num; omega
  have hym2 : y.month < 10 ^ 2 := by norm_num; omega
  have hxd2 : x.day < 10 ^ 2 := by norm_num; omega
  have hyd2 : y.day < 10 ^ 2 := by norm_num; omega
  show charListLt
      (padDigits 4 x.year ++ '-' :: (padDigits 2 x.month ++ '-' :: padDigits 2 x.day))
      (padDigits 4 y.year ++ '-' :: (padDigits 2 y.month ++ '-' :: padDigits 2 y.day))
      = true ↔ ymdLt x y
  rw [charListLt_append _ _ _ _ (by rw [length_padDigits, length_padDigits]),
    charListLt_cons_same,
    charListLt_append _ _ _ _ (by rw [length_padDigits, length_padDigits]),
    charListLt_cons_same]
  simp only [Bool.or_eq_true, Bool.and_eq_true, decide_eq_true_eq,
    charListLt_padDigits 4 _ _ hxy4 hyy4, charListLt_padDigits 2 _ _ hxm2 hym2,
    charListLt_padDigits 2 _ _ hxd2 hyd2, padDigits_eq_iff hxy4 hyy4,
    padDigits_eq_iff hxm2 hym2]
  exact Iff.rfl

theorem formatYMD_inj {x y : YMD} (hx : validYMD x.year x.month x.day = true)
    (hy : validYMD y.year y.month y.day = true) (h : formatYMD x = formatYMD y) : x = y := by
  obtain ⟨_, hxy, _, hxm, _, _, hxd, _⟩ := validYMD_bounds hx
  obtain ⟨_, hyy, _, hym, _, _, hyd, _⟩ := validYMD_bounds hy
  have hdata :
      (padDigits 4 x.year ++ '-' :: (padDigits 2 x.month ++ '-' :: padDigits 2 x.day)) =
      (padDigits 4 y.year ++ '-' :: (padDigits 2 y.month ++ '-' :: padDigits 2 y.day)) :=
    congrArg String.data h
  have h1 := List.append_inj hdata (by rw [length_padDigits, length_padDigits])
  obtain ⟨hyr, htail⟩ := h1
  have h2 := List.cons.inj htail
  have h3 := List.append_inj h2.2 (by rw [length_padDigits, length_padDigits])
  obtain ⟨hmo, htail2⟩ := h3
  have h4 := List.cons.inj htail2
  have hy' := padDigits_inj (by norm_num; omega) (by norm_num; omega) hyr
  have hm' := padDigits_inj (k := 2) (by norm_num; omega) (by norm_num; omega) hmo
  have hd' := padDigits_inj (k := 2) (by norm_num; omega) (by norm_num; omega) h4.2
  cases x; cases y
  simp_all

theorem not_dash_of_isDigit {c : Char} (h : c.isDigit = true) : ¬ c = '-' := by
  intro e
  subst e
  simp at h

theorem dash_not_mem_padDigits (k n : Nat) : '-' ∉ padDigits k n := by
  intro h
  exact not_dash_of_isDigit (padDigits_isDigit k n _ h) rfl

theorem strptimeYMD_formatYMD {x : YMD} (h : validYMD x.year x.month x.day = true) :
    strptimeYMD (formatYMD x).data = some x := by
  obtain ⟨hy1, hy2, hm1, hm2, hm12, hd1, hd2, hd31⟩ := validYMD_bounds h
  have hsplit : splitOnChar '-' (formatYMD x).data =
      [padDigits 4 x.year, padDigits 2 x.month, padDigits 2 x.day] := by
    show splitOnChar '-'
        (padDigits 4 x.year ++ '-' :: (padDigits 2 x.month ++ '-' :: padDigits 2 x.day)) = _
    rw [splitOnChar_append _ (dash_not_mem_padDigits 4 x.year),
      splitOnChar_append _ (dash_not_mem_padDigits 2 x.month),
      splitOnChar_of_not_mem (dash_not_mem_padDigits 2 x.day)]
  have hyv : digitsVal (padDigits 4 x.year) = x.year :=
    digitsVal_padDigits 4 _ (by norm_num; omega)
  have hmv : digitsVal (padDigits 2 x.month) = x.month :=
    digitsVal_padDigits 2 _ (by norm_num; omega)
  have hdv : digitsVal (padDigits 2 x.day) = x.day :=
    digitsVal_padDigits 2 _ (by norm_num; omega)
  have hga : ∀ k n, (padDigits k n).all Char.isDigit = true := by
    intro k n
    rw [List.all_eq_true]
    exact fun c hc => padDigits_isDigit k n c hc
  have hcond1 : (decide ((padDigits 4 x.year).length = 4) &&
      (padDigits 4 x.year).all Char.isDigit && fieldOK (padDigits 2 x.month) 2 12 &&
      fieldOK (padDigits 2 x.day) 2 31) = true := by
    simp only [length_padDigits, fieldOK, hga, hyv, hmv, hdv, Bool.and_eq_true,
      decide_eq_true_eq, and_true, true_and] <;> omega
  have hcond2 : validYMD (digitsVal (padDigits 4 x.year)) (digitsVal (padDigits 2 x.month))
      (digitsVal (padDigits 2 x.day)) = true := by
    rw [hyv, hmv, hdv]
    exact h
  rw [strptimeYMD, hsplit]
  show (if (decide ((padDigits 4 x.year).length = 4) && (padDigits 4 x.year).all Char.isDigit &&
        fieldOK (padDigits 2 x.month) 2 12 && fieldOK (padDigits 2 x.day) 2 31) = true then
      if validYMD (digitsVal (padDigits 4 x.year)) (digitsVal (padDigits 2 x.month))
          (digitsVal (padDigits 2 x.day)) = true then
        some ⟨digitsVal (padDigits 4 x.year), digitsVal (padDigits 2 x.month),
          digitsVal (padDigits 2 x.day)⟩
      else none
    else none) = some x
  rw [if_pos hcond1, if_pos hcond2, hyv, hmv, hdv]

/-! ## Strip and integer-parsing lemmas -/

theorem dropWhile_eq_self_of_false {p : Char → Bool} :
    ∀ {l : List Char}, (∀ c ∈ l, p c = false) → l.dropWhile p = l
  | [], _ => rfl
  | c :: rest, h => by
    rw [List.dropWhile_cons, h c (List.mem_cons_self c rest)]
    simp

theorem pyStrip_eq_self {l : List Char} (h : ∀ c ∈ l, isPySpace c = false) : pyStrip l = l := by
  unfold pyStrip
  rw [dropWhile_eq_self_of_false h,
    dropWhile_eq_self_of_false (fun c hc => h c (List.mem_reverse.1 hc)),
    List.reverse_reverse]

theorem mem_of_mem_pyStrip {l : List Char} {c : Char} (h : c ∈ pyStrip l) : c ∈ l := by
  unfold pyStrip at h
  rw [List.mem_reverse] at h
  have h1 := (List.dropWhile_sublist _).mem h
  rw [List.mem_reverse] at h1
  exact (List.dropWhile_sublist _).mem h1

theorem isPySpace_false_of_isDigit {c : Char} (h : c.isDigit = true) : isPySpace c = false := by
  cases hx : isPySpace c
  · rfl
  · exfalso
    simp only [isPySpace, Bool.or_eq_true, decide_eq_true_eq] at hx
    rcases hx with ((((rfl | rfl) | rfl) | rfl) | rfl) | rfl <;> revert h <;> decide

theorem isPySpace_false_of_isAlphanum {c : Char} (h : c.isAlphanum = true) :
    isPySpace c = false := by
  cases hx : isPySpace c
  · rfl
  · exfalso
    simp only [isPySpace, Bool.or_eq_true, decide_eq_true_eq] at hx
    rcases hx with ((((rfl | rfl) | rfl) | rfl) | rfl) | rfl <;> revert h <;> decide

theorem pyDigitsTail_cons (acc : Nat) (c : Char) (rest : List Char) :
    pyDigitsTail acc (c :: rest) =
      if c.isDigit then pyDigitsTail (acc * 10 + digitVal c) rest
      else if c = '_' then
        (match rest with
        | [] => none
        | c2 :: rest2 =>
          if c2.isDigit then pyDigitsTail (acc * 10 + digitVal c2) rest2 else none)
      else none := by
  rw [pyDigitsTail.eq_def]

theorem pyDigitsTail_digits :
    ∀ (l : List Char) (acc : Nat), (∀ c ∈ l, c.isDigit = true) →
      pyDigitsTail acc l = some (acc * 10 ^ l.length + digitsVal l)
  | [], acc, _ => by simp [pyDigitsTail, digitsVal]
  | c :: rest, acc, h => by
    have hc := h c (List.mem_cons_self c rest)
    rw [pyDigitsTail_cons, if_pos hc,
      pyDigitsTail_digits rest _ (fun x hx => h x (List.mem_cons_of_mem c hx))]
    congr 1
    simp only [digitsVal, List.length_cons]
    ring

theorem pyDigits_digits {l : List Char} (hne : l ≠ []) (h : ∀ c ∈ l, c.isDigit = true) :
    pyDigits l = some (digitsVal l) := by
  cases l with
  | nil => exact absurd rfl hne
  | cons c rest =>
    rw [pyDigits, if_pos (h c (List.mem_cons_self c rest)),
      pyDigitsTail_digits rest _ (fun x hx => h x (List.mem_cons_of_mem c hx))]
    simp [digitsVal]

theorem ne_sign_of_isDigit {c : Char} (h : c.isDigit = true) : ¬c = '+' ∧ ¬c = '-' := by
  constructor <;> rintro rfl <;> revert h <;> decide

theorem pyInt_digits {l : List Char} (hne : l ≠ []) (h : ∀ c ∈ l, c.isDigit = true) :
    pyInt l = some ((digitsVal l : Nat) : Int) := by
  have hstrip : pyStrip l = l :=
    pyStrip_eq_self (fun c hc => isPySpace_false_of_isDigit (h c hc))
  cases l with
  | nil => exact absurd rfl hne
  | cons c rest =>
    obtain ⟨hplus, hminus⟩ := ne_sign_of_isDigit (h c (List.mem_cons_self c rest))
    rw [pyInt, hstrip]
    show (if c = '+' then (pyDigits rest).map Int.ofNat
      else if c = '-' then (pyDigits rest).map (fun n => -(n : Int))
      else (pyDigits (c :: rest)).map Int.ofNat) = _
    rw [if_neg hplus, if_neg hminus, pyDigits_digits (by simp) h]
    rfl

/-! ## Storage lemmas -/

theorem lookupFS_setFS_self : ∀ (fs : FS) (k : String) (v : List Task),
    lookupFS (setFS fs k v) k = some (some v)
  | [], k, v => by simp [setFS, lookupFS]
  | e :: rest, k, v => by
    by_cases he : e.1 = k
    · simp [setFS, lookupFS, he]
    · simp [setFS, lookupFS, he, lookupFS_setFS_self rest k v]

theorem lookupFS_setFS_ne : ∀ (fs : FS) (k : String) (v : List Task) (k' : String),
    ¬k' = k → lookupFS (setFS fs k v) k' = lookupFS fs k'
  | [], k, v, k', hk => by
    simp [setFS, lookupFS]
    intro e
    exact absurd e.symm hk
  | e :: rest, k, v, k', hk => by
    by_cases he : e.1 = k
    · rw [setFS, if_pos he, lookupFS, lookupFS]
      by_cases he' : e.1 = k'
      · exact absurd (he'.symm.trans he) hk
      · rw [if_neg he', if_neg he']
    · rw [setFS, if_neg he, lookupFS, lookupFS]
      by_cases he' : e.1 = k'
      · rw [if_pos he', if_pos he']
      · rw [if_neg he', if_neg he', lookupFS_setFS_ne rest k v k' hk]

/-- A task unchanged by the per-record load transformation: its priority
key is present and its due value is a fixed point of the normalization. -/
theorem readTask_stable {today : YMD} {t : Task} (hp : t.priority.isSome = true)
    (hd : readDue today t.due = t.due) : readTask today t = t := by
  obtain ⟨p, hp'⟩ := Option.isSome_iff_exists.1 hp
  cases t
  simp_all [readTask]

/-! ## Aggregate save/load machinery -/

/-- All tasks of a bucket dictionary, each tagged with its bucket's name —
what an aggregate load would reconstruct from the buckets. -/
def flatTag (bs : List (String × List Task)) : List Task :=
  bs.flatMap (fun e => e.2.map (fun t => { t with origin := some e.1 }))

theorem flatTag_cons (e : String × List Task) (bs : List (String × List Task)) :
    flatTag (e :: bs) =
      e.2.map (fun t => { t with origin := some e.1 }) ++ flatTag bs := rfl

theorem bucketsAdd_cons (e : String × List Task) (bs : List (String × List Task))
    (k : String) (t : Task) :
    bucketsAdd (e :: bs) k t =
      if e.1 = k then (e.1, e.2 ++ [t]) :: bs else e :: bucketsAdd bs k t := by
  rw [bucketsAdd.eq_def]

theorem flatTag_bucketsAdd : ∀ (bs : List (String × List Task)) (k : String) (t : Task),
    flatTag (bucketsAdd bs k t) ~ flatTag bs ++ [{ t with origin := some k }]
  | [], k, t => by simp [bucketsAdd, flatTag]
  | e :: rest, k, t => by
    rw [bucketsAdd_cons]
    by_cases he : e.1 = k
    · rw [if_pos he, flatTag_cons, flatTag_cons]
      simp only [List.map_append, List.map_cons, List.map_nil, he, List.append_assoc]
      exact List.Perm.append_left _ List.perm_append_comm
    · rw [if_neg he, flatTag_cons, flatTag_cons]
      rw [List.append_assoc]
      exact List.Perm.append_left _ (flatTag_bucketsAdd rest k t)

/-- Short name for the dictionary-building fold step of `save_tasks`. -/
def bstep (b : List (String × List Task)) (t : Task) : List (String × List Task) :=
  bucketsAdd b (originKey t) (stripOrigin t)

theorem strip_retag (t : Task) :
    ({ stripOrigin t with origin := some (originKey t) } : Task) =
      { t with origin := some (originKey t) } := by
  cases t
  rfl

theorem flatTag_bucketsFold : ∀ (ts : List Task) (bs : List (String × List Task)),
    flatTag (ts.foldl bstep bs) ~
      flatTag bs ++ ts.map (fun t => { t with origin := some (originKey t) })
  | [], bs => by simp
  | t :: ts, bs => by
    have h1 := flatTag_bucketsFold ts (bstep bs t)
    have h2a := flatTag_bucketsAdd bs (originKey t) (stripOrigin t)
    rw [strip_retag] at h2a
    have h2 : flatTag (bstep bs t) ~
        flatTag bs ++ [{ t with origin := some (originKey t) }] := h2a
    calc flatTag (List.foldl bstep bs (t :: ts))
        = flatTag (List.foldl bstep (bstep bs t) ts) := rfl
      _ ~ flatTag (bstep bs t) ++
            ts.map (fun u => { u with origin := some (originKey u) }) := h1
      _ ~ (flatTag bs ++ [{ t with origin := some (originKey t) }]) ++
            ts.map (fun u => { u with origin := some (originKey u) }) :=
        h2.append_right _
      _ = flatTag bs ++
            (t :: ts).map (fun u => { u with origin := some (originKey u) }) := by
        simp

theorem bucketsAdd_keys (bs : List (String × List Task)) (k : String) (t : Task) :
    (bucketsAdd bs k t).map Prod.fst =
      if k ∈ bs.map Prod.fst then bs.map Prod.fst else bs.map Prod.fst ++ [k] := by
  induction bs with
  | nil => simp [bucketsAdd]
  | cons e rest ih =>
    rw [bucketsAdd_cons]
    by_cases he : e.1 = k
    · rw [if_pos he]
      simp [he]
    · rw [if_neg he]
      by_cases hm : k ∈ rest.map Prod.fst
      · simp only [List.map_cons, ih, if_pos hm]
        rw [if_pos (List.mem_cons_of_mem _ hm)]
      · have hnc : ¬ k ∈ (e.1 :: rest.map Prod.fst) := by
          intro hc
          rcases List.mem_cons.1 hc with hc | hc
          · exact he hc.symm
          · exact hm hc
        simp only [List.map_cons, ih, if_neg hm]
        rw [if_neg hnc]
        simp

theorem bucketsFold_keys_nodup : ∀ (ts : List Task) (bs : List (String × List Task)),
    (bs.map Prod.fst).Nodup → ((ts.foldl bstep bs).map Prod.fst).Nodup
  | [], bs, h => h
  | t :: ts, bs, h => by
    refine bucketsFold_keys_nodup ts (bstep bs t) ?_
    rw [bstep, bucketsAdd_keys]
    by_cases hm : originKey t ∈ bs.map Prod.fst
    · rw [if_pos hm]; exact h
    · rw [if_neg hm]
      simp [List.nodup_append, h, hm]

theorem bucketsFold_keys_super : ∀ (ts : List Task) (bs : List (String × List Task)),
    ∃ extra, (ts.foldl bstep bs).map Prod.fst = bs.map Prod.fst ++ extra
  | [], bs => ⟨[], by simp⟩
  | t :: ts, bs => by
    obtain ⟨e2, he2⟩ := bucketsFold_keys_super ts (bstep bs t)
    rw [show List.foldl bstep bs (t :: ts) = List.foldl bstep (bstep bs t) ts from rfl, he2,
      bstep, bucketsAdd_keys]
    by_cases hm : originKey t ∈ bs.map Prod.fst
    · exact ⟨e2, by rw [if_pos hm]⟩
    · exact ⟨[originKey t] ++ e2, by rw [if_neg hm, List.append_assoc]⟩

theorem bucketsFold_keys_mem : ∀ (ts : List Task) (bs : List (String × List Task))
    (k' : String), k' ∈ (ts.foldl bstep bs).map Prod.fst →
    k' ∈ bs.map Prod.fst ∨ ∃ t ∈ ts, k' = originKey t
  | [], bs, k', h => Or.inl h
  | t :: ts, bs, k', h => by
    rcases bucketsFold_keys_mem ts (bstep bs t) k' h with h1 | h1
    · rw [bstep, bucketsAdd_keys] at h1
      by_cases hm : originKey t ∈ bs.map Prod.fst
      · rw [if_pos hm] at h1
        exact Or.inl h1
      · rw [if_neg hm] at h1
        rcases List.mem_append.1 h1 with h1 | h1
        · exact Or.inl h1
        · rcases List.mem_singleton.1 h1 with rfl
          exact Or.inr ⟨t, List.mem_cons_self t ts, rfl⟩
    · obtain ⟨u, hu, he⟩ := h1
      exact Or.inr ⟨u, List.mem_cons_of_mem t hu, he⟩

theorem bucketsAdd_content (bs : List (String × List Task)) (k : String) (t : Task) :
    ∀ e ∈ bucketsAdd bs k t, ∀ x ∈ e.2, (∃ e' ∈ bs, x ∈ e'.2) ∨ x = t := by
  induction bs with
  | nil =>
    intro e he x hx
    rw [show bucketsAdd [] k t = [(k, [t])] from rfl] at he
    rcases List.mem_singleton.1 he with rfl
    rcases List.mem_singleton.1 hx with rfl
    exact Or.inr rfl
  | cons e0 rest ih =>
    intro e he x hx
    rw [bucketsAdd_cons] at he
    by_cases h0 : e0.1 = k
    · rw [if_pos h0] at he
      rcases List.mem_cons.1 he with rfl | he
      · rcases List.mem_append.1 hx with hx | hx
        · exact Or.inl ⟨e0, List.mem_cons_self e0 rest, hx⟩
        · rcases List.mem_singleton.1 hx with rfl
          exact Or.inr rfl
      · exact Or.inl ⟨e, List.mem_cons_of_mem e0 he, hx⟩
    · rw [if_neg h0] at he
      rcases List.mem_cons.1 he with rfl | he
      · exact Or.inl ⟨e, List.mem_cons_self e rest, hx⟩
      · rcases ih e he x hx with ⟨e', he', hx'⟩ | h
        · exact Or.inl ⟨e', List.mem_cons_of_mem e0 he', hx'⟩
        · exact Or.inr h

theorem bucketsFold_content : ∀ (ts : List Task) (bs : List (String × List Task)),
    ∀ e ∈ ts.foldl bstep bs, ∀ x ∈ e.2,
      (∃ e' ∈ bs, x ∈ e'.2) ∨ ∃ u ∈ ts, x = stripOrigin u
  | [], bs, e, he, x, hx => Or.inl ⟨e, he, hx⟩
  | t :: ts, bs, e, he, x, hx => by
    rcases bucketsFold_content ts (bstep bs t) e he x hx with h1 | ⟨u, hu, he'⟩
    · obtain ⟨e', he', hx'⟩ := h1
      rcases bucketsAdd_content bs (originKey t) (stripOrigin t) e' he' x hx' with h2 | h2
      · exact Or.inl h2
      · exact Or.inr ⟨t, List.mem_cons_self t ts, h2⟩
    · exact Or.inr ⟨u, List.mem_cons_of_mem t hu, he'⟩

theorem foldl_setFS_skip : ∀ (bs : List (String × List Task)) (fs : FS) (k : String)
    (u : Option (List Task)), (∀ e ∈ bs, ¬ get_list_file_stem e.1 = k) →
    bs.foldl (fun acc e => setFS acc (get_list_file_stem e.1) e.2) ((k, u) :: fs) =
      (k, u) :: bs.foldl (fun acc e => setFS acc (get_list_file_stem e.1) e.2) fs
  | [], _, _, _, _ => rfl
  | e :: bs, fs, k, u, h => by
    have he := h e (List.mem_cons_self e bs)
    show List.foldl _ (setFS ((k, u) :: fs) (get_list_file_stem e.1) e.2) bs = _
    rw [show setFS ((k, u) :: fs) (get_list_file_stem e.1) e.2 =
        (k, u) :: setFS fs (get_list_file_stem e.1) e.2 by
      rw [setFS]
      exact if_neg (fun hh => he hh.symm)]
    exact foldl_setFS_skip bs _ k u (fun e' he' => h e' (List.mem_cons_of_mem e he'))

theorem write_buckets : ∀ (bs : List (String × List Task)) (fs : FS) (extra : List String),
    (∀ e ∈ bs, get_list_file_stem e.1 = e.1) → (bs.map Prod.fst).Nodup →
    bs.map Prod.fst = fs.map Prod.fst ++ extra →
    bs.foldl (fun acc e => setFS acc (get_list_file_stem e.1) e.2) fs =
      bs.map (fun e => (e.1, some e.2))
  | [], fs, extra, _, _, heq => by
    cases fs with
    | nil => rfl
    | cons e fs' => simp at heq
  | (k0, l0) :: bs, fs, extra, hstem, hnodup, heq => by
    have hk0 : get_list_file_stem k0 = k0 := hstem _ (List.mem_cons_self _ bs)
    simp only [List.map_cons] at hnodup
    have hnd := List.nodup_cons.1 hnodup
    have hskip : ∀ e ∈ bs, ¬ get_list_file_stem e.1 = k0 := by
      intro e he hc
      rw [hstem e (List.mem_cons_of_mem _ he)] at hc
      exact hnd.1 (hc ▸ List.mem_map_of_mem Prod.fst he)
    cases fs with
    | nil =>
      show List.foldl _ (setFS [] (get_list_file_stem k0) l0) bs = _
      rw [hk0, show setFS [] k0 l0 = [(k0, some l0)] from rfl,
        foldl_setFS_skip bs [] k0 (some l0) hskip,
        write_buckets bs [] (bs.map Prod.fst)
          (fun e he => hstem e (List.mem_cons_of_mem _ he)) hnd.2 (by simp)]
      rfl
    | cons e0 fs' =>
      simp only [List.map_cons, List.cons_append] at heq
      obtain ⟨hk0e0, htail⟩ := List.cons.inj heq
      show List.foldl _ (setFS (e0 :: fs') (get_list_file_stem k0) l0) bs = _
      rw [hk0, show setFS (e0 :: fs') k0 l0 =
          if e0.1 = k0 then (e0.1, some l0) :: fs' else e0 :: setFS fs' k0 l0 from rfl,
        if_pos hk0e0.symm, hk0e0.symm,
        foldl_setFS_skip bs fs' k0 (some l0) hskip,
        write_buckets bs fs' extra
          (fun e he => hstem e (List.mem_cons_of_mem _ he)) hnd.2 htail]
      rfl

theorem flatMap_congr {α β : Type} {f g : α → List β} :
    ∀ {l : List α}, (∀ a ∈ l, f a = g a) → l.flatMap f = l.flatMap g
  | [], _ => rfl
  | a :: l, h => by
    simp only [List.flatMap_cons, h a (List.mem_cons_self a l),
      flatMap_congr (fun x hx => h x (List.mem_cons_of_mem a hx))]

theorem flatTag_seed : ∀ fs : FS, flatTag (fs.map (fun e => (e.1, []))) = []
  | [] => rfl
  | e :: fs => by simp [flatTag_cons, flatTag_seed fs]

theorem save_tasks_all_roundtrip (today : YMD) (fs : FS) (ts : List Task)
    (hfsn : (fs.map Prod.fst).Nodup)
    (hfss : ∀ e ∈ fs, get_list_file_stem e.1 = e.1)
    (hts : ∀ t ∈ ts, t.priority.isSome = true ∧ readDue today t.due = t.due ∧
      get_list_file_stem (originKey t) = originKey t) :
    (loadAll today (save_tasks_all fs ts) ~
      ts.map (fun t => { t with origin := some (originKey t) })) ∧
    (∀ e ∈ save_tasks_all fs ts, ∃ l, e.2 = some l ∧ ∀ x ∈ l, x.origin = none) := by
  have hbs_def : save_tasks_all fs ts =
      (ts.foldl bstep (fs.map (fun e => (e.1, ([] : List Task))))).foldl
        (fun acc e => setFS acc (get_list_file_stem e.1) e.2) fs := rfl
  have hkeys_seed : (fs.map (fun e => (e.1, ([] : List Task)))).map Prod.fst
      = fs.map Prod.fst := by simp
  have hnodup_bs : ((ts.foldl bstep (fs.map (fun e => (e.1, ([] : List Task))))).map
      Prod.fst).Nodup :=
    bucketsFold_keys_nodup ts _ (by rw [hkeys_seed]; exact hfsn)
  have hstem_bs : ∀ e ∈ ts.foldl bstep (fs.map (fun e => (e.1, ([] : List Task)))),
      get_list_file_stem e.1 = e.1 := by
    intro e he
    rcases bucketsFold_keys_mem ts _ e.1 (List.mem_map_of_mem Prod.fst he) with h1 | ⟨t, ht, he1⟩
    · rw [hkeys_seed] at h1
      obtain ⟨e', he', he1'⟩ := List.mem_map.1 h1
      rw [← he1']
      exact hfss e' he'
    · rw [he1]
      exact (hts t ht).2.2
  obtain ⟨extra, hextra⟩ := bucketsFold_keys_super ts (fs.map (fun e => (e.1, ([] : List Task))))
  rw [hkeys_seed] at hextra
  have hwrite : save_tasks_all fs ts =
      (ts.foldl bstep (fs.map (fun e => (e.1, ([] : List Task))))).map
        (fun e => (e.1, some e.2)) := by
    rw [hbs_def]
    exact write_buckets _ fs extra hstem_bs hnodup_bs hextra
  have hcontent : ∀ e ∈ ts.foldl bstep (fs.map (fun e => (e.1, ([] : List Task)))),
      ∀ x ∈ e.2, ∃ u ∈ ts, x = stripOrigin u := by
    intro e he x hx
    rcases bucketsFold_content ts _ e he x hx with ⟨e', he', hx'⟩ | h
    · exfalso
      obtain ⟨e0, _, he0'⟩ := List.mem_map.1 he'
      rw [← he0'] at hx'
      exact absurd hx' (List.not_mem_nil x)
    · exact h
  constructor
  · rw [hwrite]
    have hload : loadAll today
        ((ts.foldl bstep (fs.map (fun e => (e.1, ([] : List Task))))).map
          (fun e => (e.1, some e.2)))
        = flatTag (ts.foldl bstep (fs.map (fun e => (e.1, ([] : List Task))))) := by
      unfold loadAll flatTag
      rw [List.flatMap_map]
      apply flatMap_congr
      intro e he
      show (read_file today (some (some e.2))).map _ = e.2.map _
      rw [show read_file today (some (some e.2)) = e.2.map (readTask today) from rfl]
      congr 1
      have hfix : ∀ x ∈ e.2, readTask today x = x := by
        intro x hx
        obtain ⟨u, hu, rfl⟩ := hcontent e he x hx
        exact readTask_stable (hts u hu).1 (hts u hu).2.1
      rw [List.map_congr_left hfix, List.map_id']
    rw [hload]
    have hperm := flatTag_bucketsFold ts (fs.map (fun e => (e.1, ([] : List Task))))
    rw [flatTag_seed] at hperm
    simpa using hperm
  · rw [hwrite]
    intro e he
    obtain ⟨e', he', rfl⟩ := List.mem_map.1 he
    refine ⟨e'.2, rfl, ?_⟩
    intro x hx
    obtain ⟨u, hu, rfl⟩ := hcontent e' he' x hx
    rfl

theorem save_tasks_single_roundtrip (today : YMD) (fs : FS) (name : String) (ts : List Task)
    (hts : ∀ t ∈ ts, t.priority.isSome = true ∧ readDue today t.due = t.due) :
    loadSingle today (save_tasks_single fs name ts) name = ts := by
  unfold loadSingle save_tasks_single
  rw [lookupFS_setFS_self]
  show ts.map (readTask today) = ts
  rw [List.map_congr_left (fun t ht => readTask_stable (hts t ht).1 (hts t ht).2), List.map_id']

/-! ## Claim-side (specification) definitions -/

/-- Canonical `YYYY-MM-DD` form (spec glossary): the zero-padded textual
form of a calendrically valid date. -/
def isCanonicalYMD (s : String) : Bool :=
  match strptimeYMD s.data with
  | some x => s = formatYMD x
  | none => false

/-- The date a task's `due` field denotes, with an absent due date read as
the maximum possible date — the claim-side sort key for `due`. -/
def claimDueDate (t : Task) : YMD :=
  match t.due with
  | none => ⟨9999, 12, 31⟩
  | some s => (strptimeYMD s.data).getD ⟨9999, 12, 31⟩

/-- The ordering described by the spec: primary key `done` (false before
true), secondary key the due date (absent last), tertiary key priority
descending. -/
def specLe (a b : Task) : Prop :=
  (a.done = false ∧ b.done = true) ∨
    (a.done = b.done ∧ (ymdLt (claimDueDate a) (claimDueDate b) ∨
      (claimDueDate a = claimDueDate b ∧ prioOf b ≤ prioOf a)))

/-- A well-formed `due` field per the data model: absent, or the canonical
form of a valid date. -/
def dueWF (t : Task) : Prop :=
  t.due = none ∨
    ∃ x : YMD, validYMD x.year x.month x.day = true ∧ t.due = some (formatYMD x)

theorem formatYMD_ne_empty (x : YMD) : ¬ formatYMD x = "" := by
  intro h
  have h2 : (formatYMD x).data.length = 10 := by
    show (padDigits 4 x.year ++ '-' :: (padDigits 2 x.month ++ '-' :: padDigits 2 x.day)).length
      = 10
    simp [length_padDigits]
  rw [h] at h2
  simp at h2

theorem maxYMD_valid : validYMD 9999 12 31 = true := by decide

theorem maxYMD_format : ("9999-12-31" : String) = formatYMD ⟨9999, 12, 31⟩ := by decide

theorem dueKey_eq {t : Task} (h : dueWF t) :
    dueKey t = formatYMD (claimDueDate t) ∧
      validYMD (claimDueDate t).year (claimDueDate t).month (claimDueDate t).day = true := by
  rcases h with h | ⟨x, hv, hd⟩
  · simp only [dueKey, claimDueDate, h]
    exact ⟨maxYMD_format, maxYMD_valid⟩
  · simp only [dueKey, claimDueDate, hd]
    rw [if_neg (formatYMD_ne_empty x), strptimeYMD_formatYMD hv]
    exact ⟨rfl, hv⟩

theorem taskLE_unfold {a b : Task} : taskLE a b = true ↔
    (a.done = false ∧ b.done = true) ∨
      (a.done = b.done ∧ (strLtB (dueKey a) (dueKey b) = true ∨
        (dueKey a = dueKey b ∧ -(a.priority.getD 1) ≤ -(b.priority.getD 1)))) := by
  simp [taskLE, Bool.or_eq_true, Bool.and_eq_true, Bool.not_eq_true', decide_eq_true_eq]

theorem taskLE_imp_specLe {a b : Task} (ha : dueWF a) (hb : dueWF b)
    (h : taskLE a b = true) : specLe a b := by
  obtain ⟨hka, hva⟩ := dueKey_eq ha
  obtain ⟨hkb, hvb⟩ := dueKey_eq hb
  rcases taskLE_unfold.1 h with h1 | ⟨hdone, h2⟩
  · exact Or.inl h1
  · refine Or.inr ⟨hdone, ?_⟩
    rcases h2 with h2 | ⟨heq, hp⟩
    · left
      rw [strLtB, hka, hkb] at h2
      exact (charListLt_formatYMD hva hvb).1 h2
    · right
      refine ⟨formatYMD_inj hva hvb (by rw [← hka, ← hkb, heq]), ?_⟩
      have := neg_le_neg_iff.1 hp
      exact this

/-- **C2**: the sort applied after each mutation orders tasks by `done`
(false first), then by due date (absent sorting as the maximum date,
last), then by priority descending; it is stable for ties on all three
keys; re-sorting is a no-op on an already-sorted collection; and after
sorting every not-done task precedes every done task. -/
theorem c2_ordering_policy (l : List Task) (H : ∀ t ∈ l, dueWF t) :
    (sort_tasks l).Pairwise specLe ∧
    (∀ k : Bool × String × Int,
      (sort_tasks l).filter (fun t => decide ((t.done, dueKey t, prioOf t) = k)) =
        l.filter (fun t => decide ((t.done, dueKey t, prioOf t) = k))) ∧
    sort_tasks (sort_tasks l) = sort_tasks l ∧
    (sort_tasks l).Pairwise (fun a b => a.done = true → b.done = true) := by
  haveI : IsTrans Task (fun a b => taskLE a b = true) := ⟨fun a b c => taskLE_trans⟩
  haveI : IsTotal Task (fun a b => taskLE a b = true) := ⟨taskLE_total⟩
  have hsorted := List.sorted_insertionSort (fun a b => taskLE a b = true) l
  refine ⟨?_, ?_, ?_, ?_⟩
  · refine hsorted.imp_of_mem ?_
    intro a b ha hb hr
    exact taskLE_imp_specLe (H a ((List.mem_insertionSort _).1 ha))
      (H b ((List.mem_insertionSort _).1 hb)) hr
  · intro k
    obtain ⟨k1, k2, k3⟩ := k
    have hc_pw : (l.filter (fun t => decide ((t.done, dueKey t, prioOf t) = (k1, k2, k3)))).Pairwise
        (fun a b => taskLE a b = true) := by
      refine List.pairwise_of_forall_mem_list ?_
      intro a ha b hb
      have hpa := List.of_mem_filter ha
      have hpb := List.of_mem_filter hb
      simp only [decide_eq_true_eq, Prod.mk.injEq] at hpa hpb
      exact taskLE_of_key_eq (hpa.1.trans hpb.1.symm) (hpa.2.1.trans hpb.2.1.symm)
        (hpa.2.2.trans hpb.2.2.symm)
    have hsub := List.sublist_insertionSort hc_pw (List.filter_sublist l)
    have hperm := (List.perm_insertionSort (fun a b => taskLE a b = true) l).filter
      (fun t => decide ((t.done, dueKey t, prioOf t) = (k1, k2, k3)))
    have hsub2 : l.filter (fun t => decide ((t.done, dueKey t, prioOf t) = (k1, k2, k3))) <+
        (sort_tasks l).filter (fun t => decide ((t.done, dueKey t, prioOf t) = (k1, k2, k3))) := by
      have h3 := hsub.filter (fun t => decide ((t.done, dueKey t, prioOf t) = (k1, k2, k3)))
      rw [show (l.filter (fun t => decide ((t.done, dueKey t, prioOf t) = (k1, k2, k3)))).filter
            (fun t => decide ((t.done, dueKey t, prioOf t) = (k1, k2, k3)))
          = l.filter (fun t => decide ((t.done, dueKey t, prioOf t) = (k1, k2, k3))) by
        rw [List.filter_eq_self]
        intro a ha
        have hx := List.of_mem_filter ha
        exact hx] at h3
      exact h3
    exact (hsub2.eq_of_length hperm.length_eq.symm).symm
  · exact hsorted.insertionSort_eq
  · refine hsorted.imp ?_
    intro a b hr hda
    rcases taskLE_unfold.1 hr with ⟨h1, _⟩ | ⟨hdone, _⟩
    · rw [hda] at h1
      exact absurd h1 (by simp)
    · rw [← hdone, hda]

/-- **C1**: persisting a collection and then loading the same context
yields tasks equal to the originals in every field except the view-only
`origin` tag: the tag is stripped before writing and regenerated from file
membership on the aggregate load, and the files written never store it.
The hypotheses record the data model: tasks carry a priority key and a
normalization-stable (canonical or absent) due date; origin tags are
absent outside the aggregate view; and file stems and origin names are
sanitization-stable. -/
theorem c1_persist_load_roundtrip (today : YMD) (fs : FS) (ts : List Task)
    (hwf : ∀ t ∈ ts, t.priority.isSome = true ∧ readDue today t.due = t.due) :
    (∀ name, ¬name = "ALLE" → (∀ t ∈ ts, t.origin = none) →
      load_current_context today (save_tasks fs name false ts) name = ts ∧
      (∃ l, lookupFS (save_tasks fs name false ts) (get_list_file_stem name) = some (some l) ∧
        ∀ x ∈ l, x.origin = none)) ∧
    ((fs.map Prod.fst).Nodup → (∀ e ∈ fs, get_list_file_stem e.1 = e.1) →
      (∀ t ∈ ts, get_list_file_stem (originKey t) = originKey t) →
      (load_current_context today (save_tasks fs "ALLE" true ts) "ALLE" ~
        ts.map (fun t => { t with origin := some (originKey t) })) ∧
      (∀ e ∈ save_tasks fs "ALLE" true ts, ∃ l, e.2 = some l ∧ ∀ x ∈ l, x.origin = none)) := by
  constructor
  · intro name hname horigin
    constructor
    · show load_current_context today (save_tasks_single fs name ts) name = ts
      rw [load_current_context, if_neg hname]
      exact save_tasks_single_roundtrip today fs name ts hwf
    · exact ⟨ts, lookupFS_setFS_self fs _ ts, fun x hx => by
        rw [horigin x hx]⟩
  · intro hfsn hfss hstems
    have h := save_tasks_all_roundtrip today fs ts hfsn hfss
      (fun t ht => ⟨(hwf t ht).1, (hwf t ht).2, hstems t ht⟩)
    refine ⟨?_, h.2⟩
    rw [load_current_context, if_pos rfl]
    exact h.1

/-- Witness for C1 at a concrete store and collection. -/
theorem c1_persist_load_roundtrip_witness :
    (∀ t ∈ [(⟨"a", false, some 2, some "2025-06-01", none, none⟩ : Task)],
      t.priority.isSome = true ∧ readDue ⟨2025, 10, 12⟩ t.due = t.due) ∧
    load_current_context ⟨2025, 10, 12⟩
      (save_tasks [] "work" false [⟨"a", false, some 2, some "2025-06-01", none, none⟩]) "work"
      = [⟨"a", false, some 2, some "2025-06-01", none, none⟩] :=
  ⟨by decide,
    ((c1_persist_load_roundtrip ⟨2025, 10, 12⟩ [] _ (by decide)).1 "work" (by decide)
      (by decide)).1⟩

/-- Witness for C2 at a concrete collection. -/
theorem c2_ordering_policy_witness :
    (∀ t ∈ [(⟨"a", false, some 1, some "2025-06-01", none, none⟩ : Task),
            ⟨"b", true, some 3, none, none, none⟩], dueWF t) ∧
    (List.Pairwise specLe (sort_tasks [⟨"a", false, some 1, some "2025-06-01", none, none⟩,
      ⟨"b", true, some 3, none, none, none⟩])) := by
  have hwf : ∀ t ∈ [(⟨"a", false, some 1, some "2025-06-01", none, none⟩ : Task),
      ⟨"b", true, some 3, none, none, none⟩], dueWF t := by
    intro t ht
    rcases List.mem_cons.1 ht with rfl | ht
    · exact Or.inr ⟨⟨2025, 6, 1⟩, by decide, by decide⟩
    · rcases List.mem_singleton.1 ht with rfl
      exact Or.inl rfl
  exact ⟨hwf, (c2_ordering_policy _ hwf).1⟩

/-- **C3**: toggling a not-done task with a truthy due date and recurrence
to done appends exactly one task copying every field except `done` (forced
false) and `due` (the computed next occurrence), while the original stays
in place with `done := true`; toggles in the other direction, or with a
missing due/recurrence, or with an unresolvable code, append nothing.
Completing a task due `2025-06-01` recurring `1w` spawns one due
`2025-06-08`. -/
theorem c3_recurrence_spawner (tasks : List Task) (i : Nat) (t : Task)
    (ht : tasks[i]? = some t) :
    (t.done = false → truthyStr t.recurrence = true → truthyStr t.due = true →
      ((∀ nd, calculate_next_date t.due t.recurrence = some nd →
        toggle_task tasks i =
          tasks.set i { t with done := true } ++
            [{ t with done := false, due := some nd }]) ∧
      (calculate_next_date t.due t.recurrence = none →
        toggle_task tasks i = tasks.set i { t with done := true }))) ∧
    (t.done = true → toggle_task tasks i = tasks.set i { t with done := false }) ∧
    (t.done = false → (truthyStr t.recurrence = false ∨ truthyStr t.due = false) →
      toggle_task tasks i = tasks.set i { t with done := true }) ∧
    toggle_task [⟨"wash", false, some 1, some "2025-06-01", some "1w", none⟩] 0 =
      [⟨"wash", true, some 1, some "2025-06-01", some "1w", none⟩,
       ⟨"wash", false, some 1, some "2025-06-08", some "1w", none⟩] := by
  refine ⟨?_, ?_, ?_, by decide⟩
  · intro hdone hrec hdue
    constructor
    · intro nd hnd
      simp [toggle_task, ht, hdone, hrec, hdue, hnd]
    · intro hnd
      simp [toggle_task, ht, hdone, hrec, hdue, hnd]
  · intro hdone
    simp [toggle_task, ht, hdone]
  · intro hdone hmiss
    rcases hmiss with hmiss | hmiss <;> simp [toggle_task, ht, hdone, hmiss]

/-- Witness for C3 at a concrete collection. -/
theorem c3_recurrence_spawner_witness :
    (getElem? ([⟨"wash", false, some 1, some "2025-06-01", some "1w", none⟩] : List Task) 0 =
      some (⟨"wash", false, some 1, some "2025-06-01", some "1w", none⟩ : Task)) ∧
    toggle_task [⟨"wash", false, some 1, some "2025-06-01", some "1w", none⟩] 0 =
      [⟨"wash", true, some 1, some "2025-06-01", some "1w", none⟩,
       ⟨"wash", false, some 1, some "2025-06-08", some "1w", none⟩] :=
  ⟨by decide,
    (c3_recurrence_spawner [⟨"wash", false, some 1, some "2025-06-01", some "1w", none⟩] 0
      ⟨"wash", false, some 1, some "2025-06-01", some "1w", none⟩ (by decide)).2.2.2⟩

/-- **C6**: loading a single list never signals an error: a missing file
and malformed content both yield the empty collection, and every record
that loads keeps its title and done flag while `priority` defaults to 1
and `due`/`recurrence` stay absent when missing. -/
theorem c6_load_single_defaults (today : YMD) (fs : FS) (name : String) :
    (lookupFS fs (get_list_file_stem name) = none → loadSingle today fs name = []) ∧
    (lookupFS fs (get_list_file_stem name) = some none → loadSingle today fs name = []) ∧
    (∀ ts, lookupFS fs (get_list_file_stem name) = some (some ts) →
      loadSingle today fs name = ts.map (readTask today)) ∧
    (∀ t : Task, (readTask today t).title = t.title ∧ (readTask today t).done = t.done ∧
      (t.priority = none → (readTask today t).priority = some 1) ∧
      (t.due = none → (readTask today t).due = none) ∧
      (t.recurrence = none → (readTask today t).recurrence = none)) := by
  refine ⟨?_, ?_, ?_, ?_⟩
  · intro h
    rw [loadSingle, h, read_file]
  · intro h
    rw [loadSingle, h]
    rfl
  · intro ts h
    rw [loadSingle, h]
    rfl
  · intro t
    refine ⟨rfl, rfl, ?_, ?_, ?_⟩
    · intro h
      simp [readTask, h]
    · intro h
      simp [readTask, readDue, h]
    · intro h
      simp [readTask, h]

/-- Witness for C6 at a concrete store. -/
theorem c6_load_single_defaults_witness :
    lookupFS [("L", some [(⟨"x", false, none, none, none, none⟩ : Task)])]
      (get_list_file_stem "L") = some (some [⟨"x", false, none, none, none, none⟩]) ∧
    loadSingle ⟨2025, 10, 12⟩ [("L", some [⟨"x", false, none, none, none, none⟩])] "L" =
      [⟨"x", false, none, none, none, none⟩].map (readTask ⟨2025, 10, 12⟩) :=
  ⟨by decide, (c6_load_single_defaults ⟨2025, 10, 12⟩ _ "L").2.2.1 _ (by decide)⟩

/-! ## C7: next occurrence -/

/-- The magnitude of a recurrence code's leading substring as the source
computes it: empty means 1, otherwise Python `int`, defaulting to 1 when
unreadable. -/
def pyMagnitude (lead : List Char) : Int :=
  if lead.isEmpty then 1 else (pyInt lead).getD 1

/-- `next_occurrence` as the claim words it (for comparison with the
source): the final character selects the unit — exactly `d` or `w`,
anything else absent — and the leading characters give the magnitude when
they are literal digits, defaulting to 1 otherwise. -/
def claimNextOccurrence (date_str recurrence : String) : Option String :=
  match strptimeYMD date_str.data with
  | none => none
  | some x =>
    match recurrence.data.getLast? with
    | none => none
    | some u =>
      let lead := recurrence.data.dropLast
      let mag : Int :=
        if !lead.isEmpty && lead.all Char.isDigit then (digitsVal lead : Int) else 1
      if u = 'd' then addDaysChecked x mag
      else if u = 'w' then addDaysChecked x (7 * mag)
      else none

/-- **C7 counterexample**: the code lowercases the final character, so
`"1D"` advances the date by one day, while the claim's unit table
(`d`/`w` only) would yield absent. -/
theorem c7_counterexample :
    calculate_next_date (some "2025-01-31") (some "1D") = some "2025-02-01" ∧
    claimNextOccurrence "2025-01-31" "1D" = none := by
  constructor <;> decide

/-- **C7 amended**: the unit is selected case-insensitively from the final
character (`d`/`D` days, `w`/`W` weeks, anything else absent); the
magnitude is the Python integer reading of the leading substring (signs,
surrounding whitespace and digit-group underscores included, negative
values moving the date backwards), defaulting to 1 when the substring is
empty or unreadable; the result is the date advanced by magnitude·unit,
absent when it leaves the supported year range.  The claim's examples
hold. -/
theorem c7_next_occurrence_amended (x : YMD) (ds : String)
    (hds : strptimeYMD ds.data = some x) (lead : List Char) (c : Char) :
    (c.toLower = 'd' →
      calculate_next_date (some ds) (some (String.mk (lead ++ [c]))) =
        addDaysChecked x (pyMagnitude lead)) ∧
    (c.toLower = 'w' →
      calculate_next_date (some ds) (some (String.mk (lead ++ [c]))) =
        addDaysChecked x (7 * pyMagnitude lead)) ∧
    (¬c.toLower = 'd' → ¬c.toLower = 'w' →
      calculate_next_date (some ds) (some (String.mk (lead ++ [c]))) = none) ∧
    calculate_next_date (some "2025-01-31") (some "1w") = some "2025-02-07" ∧
    calculate_next_date (some "2025-01-31") (some "2d") = some "2025-02-02" ∧
    (∀ d' : String, calculate_next_date (some d') (some "x") = none) := by
  have hne : ¬ds = "" := by
    rintro rfl
    rw [show strptimeYMD ("" : String).data = none from rfl] at hds
    cases hds
  have hne2 : ¬String.mk (lead ++ [c]) = "" := by
    intro h
    have h2 := congrArg String.data h
    simp at h2
  have hcalc : calculate_next_date (some ds) (some (String.mk (lead ++ [c]))) =
      (if c.toLower = 'd' then addDaysChecked x (pyMagnitude lead)
       else if c.toLower = 'w' then addDaysChecked x (7 * pyMagnitude lead)
       else none) := by
    rw [calculate_next_date, if_neg (by simp [truthyStr, hne, hne2])]
    show (match strptimeYMD ds.data with
      | none => none
      | some x =>
        let rc := (String.mk (lead ++ [c])).data
        let unit := ((rc.getLast?).getD ' ').toLower
        let valStr := rc.dropLast
        let val : Int := if valStr.isEmpty then 1 else (pyInt valStr).getD 1
        if unit = 'd' then addDaysChecked x val
        else if unit = 'w' then addDaysChecked x (7 * val)
        else none) = _
    rw [hds]
    show (let rc := lead ++ [c]
      let unit := ((rc.getLast?).getD ' ').toLower
      let valStr := rc.dropLast
      let val : Int := if valStr.isEmpty then 1 else (pyInt valStr).getD 1
      if unit = 'd' then addDaysChecked x val
      else if unit = 'w' then addDaysChecked x (7 * val)
      else none) = _
    simp only [List.getLast?_concat, List.dropLast_concat, Option.getD_some]
    rfl
  refine ⟨?_, ?_, ?_, by decide, by decide, ?_⟩
  · intro h
    rw [hcalc, if_pos h]
  · intro h
    have hd : ¬c.toLower = 'd' := by
      rw [h]
      decide
    rw [hcalc, if_neg hd, if_pos h]
  · intro h1 h2
    rw [hcalc, if_neg h1, if_neg h2]
  · intro d'
    by_cases hd' : d' = ""
    · subst hd'
      decide
    · rw [calculate_next_date, if_neg (by simp [truthyStr, hd'])]
      cases hs : strptimeYMD ((some d').getD "").data with
      | none => rfl
      | some y => rfl

/-- Witness for C7 (amended) at the claim's own example. -/
theorem c7_next_occurrence_amended_witness :
    strptimeYMD ("2025-01-31" : String).data = some ⟨2025, 1, 31⟩ ∧
    calculate_next_date (some "2025-01-31") (some (String.mk (['1'] ++ ['w']))) =
      addDaysChecked ⟨2025, 1, 31⟩ (7 * pyMagnitude ['1']) :=
  ⟨by decide,
    (c7_next_occurrence_amended ⟨2025, 1, 31⟩ "2025-01-31" (by decide) ['1'] 'w').2.1
      (by decide)⟩

/-! ## C9: storage identifiers -/

/-- The storage identifier as the claim words it: keep exactly the
alphanumerics, spaces, hyphens and underscores, fall back to the default
when nothing is left. -/
def claimStorageId (name : String) : String :=
  let kept := name.data.filter (fun c => c.isAlphanum || c = ' ' || c = '-' || c = '_')
  if kept.isEmpty then "default" else String.mk kept

/-- **C9 counterexample**: the code additionally strips leading/trailing
whitespace, so the identifier for `" a"` is `"a"`, not the claimed
`" a"`. -/
theorem c9_counterexample :
    get_list_file_stem " a" = "a" ∧ claimStorageId " a" = " a" ∧
    ¬(" a" : String) = "a" := by
  refine ⟨by decide, by decide, by decide⟩

/-- **C9 amended**: the identifier keeps the alphanumerics, spaces,
hyphens and underscores of the name and *then strips leading and trailing
whitespace*, falling back to the fixed default when the result is empty;
every character of the identifier is from the kept class, and on names
whose kept characters have no leading/trailing whitespace the identifier
is exactly the claim's filter. -/
theorem c9_storage_id_amended (name : String) :
    get_list_file_stem name =
      (if pyStrip (name.data.filter (fun c => c.isAlphanum || c = ' ' || c = '-' || c = '_')) = []
       then "default"
       else String.mk
        (pyStrip (name.data.filter (fun c => c.isAlphanum || c = ' ' || c = '-' || c = '_')))) ∧
    (∀ c ∈ (get_list_file_stem name).data,
      (c.isAlphanum || c = ' ' || c = '-' || c = '_') = true) ∧
    ((∀ c ∈ name.data.filter (fun c => c.isAlphanum || c = ' ' || c = '-' || c = '_'),
        isPySpace c = false) →
      get_list_file_stem name = claimStorageId name) := by
  refine ⟨?_, ?_, ?_⟩
  · rw [get_list_file_stem]
    by_cases h : pyStrip (name.data.filter
        (fun c => c.isAlphanum || c = ' ' || c = '-' || c = '_')) = []
    · rw [if_pos h, if_pos]
      rw [h]
      rfl
    · rw [if_neg h, if_neg]
      intro h2
      exact h (List.isEmpty_iff.1 h2)
  · intro c hc
    rw [get_list_file_stem] at hc
    by_cases h : (pyStrip (name.data.filter
        (fun c => c.isAlphanum || c = ' ' || c = '-' || c = '_'))).isEmpty
    · rw [if_pos h] at hc
      have hall : ∀ c ∈ ("default" : String).data,
          (c.isAlphanum || c = ' ' || c = '-' || c = '_') = true := by decide
      exact hall c hc
    · rw [if_neg h] at hc
      have hc2 := mem_of_mem_pyStrip hc
      exact (List.mem_filter.1 hc2).2
  · intro h
    rw [get_list_file_stem, claimStorageId, pyStrip_eq_self h]

/-- Witness for C9 (amended) at a concrete name kept free of whitespace. -/
theorem c9_storage_id_amended_witness :
    get_list_file_stem "ab-c!" = claimStorageId "ab-c!" :=
  (c9_storage_id_amended "ab-c!").2.2 (by decide)

/-- **C10**: creating a list through the directory dialog names it by the
subsequence of alphanumeric characters of the input (spaces, hyphens and
underscores are dropped, unlike in storage-identifier derivation), and
when that subsequence is empty (or no name was entered) nothing changes:
no list is created and context and collection stay as they were. -/
theorem c10_new_list_name (today : YMD) (s : AppState) (nm : String) :
    pyStrip (nm.data.filter Char.isAlphanum) = nm.data.filter Char.isAlphanum ∧
    (nm = "" → run_list_selection_step today s (.newList nm) = s) ∧
    (nm.data.filter Char.isAlphanum = [] → run_list_selection_step today s (.newList nm) = s) ∧
    (¬nm = "" → ¬nm.data.filter Char.isAlphanum = [] →
      (run_list_selection_step today s (.newList nm)).current_list_name =
        String.mk (nm.data.filter Char.isAlphanum) ∧
      (run_list_selection_step today s (.newList nm)).tasks = []) := by
  have hstrip : pyStrip (nm.data.filter Char.isAlphanum) = nm.data.filter Char.isAlphanum :=
    pyStrip_eq_self (fun c hc => isPySpace_false_of_isAlphanum (List.mem_filter.1 hc).2)
  refine ⟨hstrip, ?_, ?_, ?_⟩
  · intro h
    simp [run_list_selection_step, h]
  · intro h
    rw [run_list_selection_step]
    by_cases hnm : nm = ""
    · rw [if_pos hnm]
    · rw [if_neg hnm, hstrip, h]
      simp
  · intro h1 h2
    rw [run_list_selection_step, if_neg h1, hstrip]
    rw [if_neg (by simpa [List.isEmpty_iff] using h2)]
    exact ⟨rfl, rfl⟩

/-- Witness for C10 at a concrete input. -/
theorem c10_new_list_name_witness :
    ¬("My List!" : String) = "" ∧
    ¬("My List!" : String).data.filter Char.isAlphanum = [] ∧
    (run_list_selection_step ⟨2025, 10, 12⟩
      ⟨[], "tasks", false, []⟩ (.newList "My List!")).current_list_name =
      String.mk (("My List!" : String).data.filter Char.isAlphanum) :=
  ⟨by decide, by decide,
    ((c10_new_list_name ⟨2025, 10, 12⟩ ⟨[], "tasks", false, []⟩ "My List!").2.2.2
      (by decide) (by decide)).1⟩

/-! ## C5: due-date normalization on load -/

theorem strptimeYMD_inv {l : List Char} {x : YMD} (h : strptimeYMD l = some x) :
    ∃ y m d, splitOnChar '-' l = [y, m, d] ∧ (∀ c ∈ y, c.isDigit = true) ∧
      (∀ c ∈ m, c.isDigit = true) ∧ (∀ c ∈ d, c.isDigit = true) := by
  unfold strptimeYMD at h
  split at h
  · next y m d heq =>
    split at h
    · next hc =>
      simp only [fieldOK, Bool.and_eq_true, decide_eq_true_eq, List.all_eq_true] at hc
      exact ⟨y, m, d, heq, hc.1.1.2, hc.1.2.1.1.2, hc.2.1.1.2⟩
    · cases h
  · cases h

theorem no_dot_of_strptime {l : List Char} {x : YMD} (h : strptimeYMD l = some x) :
    '.' ∉ l := by
  obtain ⟨y, m, d, hsp, hy, hm, hd⟩ := strptimeYMD_inv h
  have hrec := splitOnChar_reconstruct '-' l
  rw [hsp] at hrec
  have hl : l = y ++ '-' :: (m ++ '-' :: d) := by
    rw [← hrec]
    rfl
  intro hin
  rw [hl] at hin
  rcases List.mem_append.1 hin with hin | hin
  · exact absurd (hy _ hin) (by decide)
  · rcases List.mem_cons.1 hin with hin | hin
    · exact absurd hin (by decide)
    · rcases List.mem_append.1 hin with hin | hin
      · exact absurd (hm _ hin) (by decide)
      · rcases List.mem_cons.1 hin with hin | hin
        · exact absurd hin (by decide)
        · exact absurd (hd _ hin) (by decide)

theorem mkDateStr_canonical {a b c : Int} {r : String} (h : mkDateStr a b c = some r) :
    isCanonicalYMD r = true := by
  unfold mkDateStr at h
  split at h
  · next hcond =>
    injection h with h
    simp only [Bool.and_eq_true, decide_eq_true_eq] at hcond
    have hv : validYMD a.toNat b.toNat c.toNat = true := by
      simp only [validYMD, Bool.and_eq_true, decide_eq_true_eq]
      omega
    rw [← h, isCanonicalYMD, strptimeYMD_formatYMD hv]
    simp
  · cases h

theorem parse_dot_canonical {today : YMD} {s r : String} (hdot : '.' ∈ s.data)
    (h : parse_german_date today s = some r) : isCanonicalYMD r = true := by
  unfold parse_german_date at h
  rw [if_neg (by rintro rfl; cases hdot)] at h
  split at h
  · next y heqsome =>
    split at heqsome
    · exact absurd hdot (no_dot_of_strptime heqsome)
    · cases heqsome
  · split at h
    · next p0 p1 heq2 =>
      split at h
      · exact mkDateStr_canonical h
      · cases h
    · next p0 p1 p2 heq3 =>
      split at h
      · exact mkDateStr_canonical h
      · cases h
    · cases h

/-- **C5 counterexample**: a stored due value containing a dot that the
parser cannot read (here `"xx.yy"`) survives the load verbatim, so a
loaded task can carry a present, non-canonical due value — the claim's
"every present due is canonical after load" fails. -/
theorem c5_counterexample :
    loadSingle ⟨2025, 10, 12⟩
      [("L", some [⟨"x", false, some 1, some "xx.yy", none, none⟩])] "L" =
      [⟨"x", false, some 1, some "xx.yy", none, none⟩] ∧
    isCanonicalYMD "xx.yy" = false := by
  constructor <;> decide

theorem contains_char_iff {l : List Char} {a : Char} : l.contains a = true ↔ a ∈ l := by
  rw [List.contains_iff_exists_mem_beq]
  constructor
  · rintro ⟨b, hb, he⟩
    rw [eq_of_beq he]
    exact hb
  · intro h
    exact ⟨a, h, by simp⟩

/-- **C5 amended**: load rewrites a stored due value exactly when it is
nonempty, contains a dot and the parser reads it — and then the result is
the canonical parse; every other stored due, dot-free non-canonical
values (`"2025-1-3"`, `"hello"`) included, survives the load verbatim.
So the normalization invariant holds only for parseable dotted legacy
values: every loaded task comes from a stored record whose due was either
kept verbatim (being empty, dot-free or unparseable) or was a nonempty
parseable dotted value replaced by its canonical parse result. -/
theorem c5_due_normalization_amended (today : YMD) (c : Option (Option (List Task))) :
    (∀ t ∈ read_file today c, ∃ r : Task, readTask today r = t ∧
      ((t.due = r.due ∧ (∀ d, r.due = some d →
          d = "" ∨ '.' ∉ d.data ∨ parse_german_date today d = none)) ∨
       (∃ d cl, r.due = some d ∧ ¬d = "" ∧ '.' ∈ d.data ∧
          parse_german_date today d = some cl ∧ t.due = some cl ∧
          isCanonicalYMD cl = true))) ∧
    (∀ r : Task, ∀ s' cl, r.due = some s' → ¬s' = "" → '.' ∈ s'.data →
      parse_german_date today s' = some cl → (readTask today r).due = some cl) := by
  constructor
  · intro t ht
    match c with
    | none => cases ht
    | some none => cases ht
    | some (some ts) =>
      obtain ⟨r, _, rfl⟩ := List.mem_map.1 ht
      refine ⟨r, rfl, ?_⟩
      match hr : r.due with
      | none =>
        left
        constructor
        · show readDue today r.due = none
          rw [hr]
          rfl
        · intro d hd
          cases hd
      | some s =>
        have h1 : (readTask today r).due =
            (if s ≠ "" && s.data.contains '.' then
              match parse_german_date today s with
              | some clean => some clean
              | none => some s
            else some s) := by
          show readDue today r.due = _
          rw [hr]
          rfl
        by_cases hcond : (s ≠ "" && s.data.contains '.') = true
        · rw [if_pos hcond] at h1
          simp only [Bool.and_eq_true, Bool.not_eq_true', decide_eq_true_eq] at hcond
          split at h1
          · next cl hp =>
            right
            exact ⟨s, cl, rfl, hcond.1, contains_char_iff.1 hcond.2, hp, h1,
              parse_dot_canonical (contains_char_iff.1 hcond.2) hp⟩
          · next hp =>
            left
            constructor
            · exact h1
            · intro d hd
              injection hd with hd
              subst hd
              exact Or.inr (Or.inr hp)
        · rw [if_neg hcond] at h1
          left
          constructor
          · exact h1
          · intro d hd
            injection hd with hd
            subst hd
            by_cases hs : s = ""
            · exact Or.inl hs
            · refine Or.inr (Or.inl ?_)
              intro hdot
              apply hcond
              simp only [Bool.and_eq_true, Bool.not_eq_true', decide_eq_true_eq]
              exact ⟨hs, contains_char_iff.2 hdot⟩
  · intro r s' cl hr hne hdot hp
    show readDue today r.due = some cl
    rw [hr, readDue,
      if_pos (by
        simp only [Bool.and_eq_true, Bool.not_eq_true', decide_eq_true_eq]
        exact ⟨hne, contains_char_iff.2 hdot⟩), hp]

/-- Witness for C5 (amended) at a concrete store holding a dotted due. -/
theorem c5_due_normalization_amended_witness :
    (∃ r : Task, readTask ⟨2025, 10, 12⟩ r =
        (⟨"x", false, some 1, some "2026-06-01", none, none⟩ : Task) ∧
      (((⟨"x", false, some 1, some "2026-06-01", none, none⟩ : Task).due = r.due ∧
         (∀ d, r.due = some d → d = "" ∨ '.' ∉ d.data ∨
           parse_german_date ⟨2025, 10, 12⟩ d = none)) ∨
       (∃ d cl, r.due = some d ∧ ¬d = "" ∧ '.' ∈ d.data ∧
         parse_german_date ⟨2025, 10, 12⟩ d = some cl ∧
         (⟨"x", false, some 1, some "2026-06-01", none, none⟩ : Task).due = some cl ∧
         isCanonicalYMD cl = true))) ∧
    (readTask ⟨2025, 10, 12⟩ ⟨"x", false, some 1, some "1.6", none, none⟩).due =
      some "2026-06-01" :=
  ⟨(c5_due_normalization_amended ⟨2025, 10, 12⟩
      (some (some [⟨"x", false, some 1, some "1.6", none, none⟩]))).1
      ⟨"x", false, some 1, some "2026-06-01", none, none⟩ (by decide),
   (c5_due_normalization_amended ⟨2025, 10, 12⟩ none).2
      ⟨"x", false, some 1, some "1.6", none, none⟩ "1.6" "2026-06-01" rfl (by decide)
      (by decide) (by decide)⟩

/-! ## C8: flexible date parsing -/

theorem parse_strptime_as_is (today : YMD) (s : String) (x : YMD)
    (h : strptimeYMD s.data = some x) : parse_german_date today s = some s := by
  obtain ⟨y, m, d, hsp, hy, hm, hd⟩ := strptimeYMD_inv h
  have hrec := splitOnChar_reconstruct '-' s.data
  rw [hsp] at hrec
  have hl : s.data = y ++ '-' :: (m ++ '-' :: d) := by
    rw [← hrec]
    rfl
  have hcy : y.count '-' = 0 :=
    List.count_eq_zero.2 (fun hh => absurd (hy _ hh) (by decide))
  have hcm : m.count '-' = 0 :=
    List.count_eq_zero.2 (fun hh => absurd (hm _ hh) (by decide))
  have hcd : d.count '-' = 0 :=
    List.count_eq_zero.2 (fun hh => absurd (hd _ hh) (by decide))
  have hcount : s.data.count '-' = 2 := by
    rw [hl]
    simp [List.count_append, List.count_cons, hcy, hcm, hcd]
  have hcontains : s.data.contains '-' = true := by
    refine contains_char_iff.2 ?_
    rw [hl]
    exact List.mem_append.2 (Or.inr (List.mem_cons_self _ _))
  have hne : ¬s = "" := by
    intro he
    rw [he] at hl
    simp at hl
  unfold parse_german_date
  rw [if_neg hne, if_pos (by rw [hcontains, hcount]; simp), h]

theorem mkDateStr_nat (y m d : Nat) :
    mkDateStr (y : Int) (m : Int) (d : Int) =
      if validYMD y m d = true then some (formatYMD ⟨y, m, d⟩) else none := by
  unfold mkDateStr
  by_cases hv : validYMD y m d = true
  · rw [if_pos hv]
    have hc : (1 ≤ (y : Int) && (y : Int) ≤ 9999 && 1 ≤ (m : Int) && (m : Int) ≤ 12 &&
        1 ≤ (d : Int) &&
        (d : Int) ≤ (daysInMonth (y : Int).toNat (m : Int).toNat : Int)) = true := by
      simp only [validYMD, Bool.and_eq_true, decide_eq_true_eq] at hv
      simp only [Int.toNat_natCast, Bool.and_eq_true, decide_eq_true_eq]
      omega
    rw [if_pos hc]
    simp
  · rw [if_neg hv, if_neg]
    intro hc
    apply hv
    simp only [Int.toNat_natCast, Bool.and_eq_true, decide_eq_true_eq] at hc
    simp only [validYMD, Bool.and_eq_true, decide_eq_true_eq]
    omega

theorem pyStrip_digits_dots {l : List Char} (h : ∀ c ∈ l, c.isDigit = true ∨ c = '.') :
    pyStrip l = l := by
  refine pyStrip_eq_self (fun c hc => ?_)
  rcases h c hc with h' | rfl
  · exact isPySpace_false_of_isDigit h'
  · decide

theorem dash_contains_false {l : List Char} (h : ∀ c ∈ l, c.isDigit = true ∨ c = '.') :
    l.contains '-' = false := by
  cases hc : l.contains '-'
  · rfl
  · exfalso
    rcases h _ (contains_char_iff.1 hc) with h' | h' <;> revert h' <;> decide

theorem dot_not_mem_digits {l : List Char} (h : ∀ c ∈ l, c.isDigit = true) : '.' ∉ l :=
  fun hh => absurd (h _ hh) (by decide)

theorem parse_dm (today : YMD) (dl ml : List Char) (hdne : dl ≠ []) (hmne : ml ≠ [])
    (hdd : ∀ c ∈ dl, c.isDigit = true) (hmd : ∀ c ∈ ml, c.isDigit = true) :
    parse_german_date today (String.mk (dl ++ '.' :: ml)) =
      (if validYMD
          (if digitsVal ml < today.month ∨
              (digitsVal ml = today.month ∧ digitsVal dl < today.day)
           then today.year + 1 else today.year) (digitsVal ml) (digitsVal dl) = true then
        some (formatYMD
          ⟨if digitsVal ml < today.month ∨
              (digitsVal ml = today.month ∧ digitsVal dl < today.day)
            then today.year + 1 else today.year, digitsVal ml, digitsVal dl⟩)
      else none) := by
  have hchars : ∀ c ∈ dl ++ '.' :: ml, c.isDigit = true ∨ c = '.' := by
    intro c hc
    rcases List.mem_append.1 hc with hc | hc
    · exact Or.inl (hdd c hc)
    · rcases List.mem_cons.1 hc with rfl | hc
      · exact Or.inr rfl
      · exact Or.inl (hmd c hc)
  have hdata : (String.mk (dl ++ '.' :: ml)).data = dl ++ '.' :: ml := rfl
  have hne : ¬String.mk (dl ++ '.' :: ml) = "" := by
    intro h
    have h2 := congrArg String.data h
    rw [hdata] at h2
    simp at h2
  unfold parse_german_date
  rw [if_neg hne, hdata, if_neg (by rw [dash_contains_false hchars]; simp),
    pyStrip_digits_dots hchars, splitOnChar_append ml (dot_not_mem_digits hdd),
    splitOnChar_of_not_mem (dot_not_mem_digits hmd)]
  show (match pyInt dl, pyInt ml with
    | some day, some month =>
      mkDateStr
        (if month < (today.month : Int) ||
            (month = (today.month : Int) && day < (today.day : Int)) then
          (today.year : Int) + 1
        else (today.year : Int)) month day
    | _, _ => none) = _
  rw [pyInt_digits hdne hdd, pyInt_digits hmne hmd]
  show mkDateStr
      (if (digitsVal ml : Int) < (today.month : Int) ||
          ((digitsVal ml : Int) = (today.month : Int) &&
            (digitsVal dl : Int) < (today.day : Int)) then
        (today.year : Int) + 1
      else (today.year : Int)) (digitsVal ml : Int) (digitsVal dl : Int) = _
  by_cases hroll : digitsVal ml < today.month ∨
      (digitsVal ml = today.month ∧ digitsVal dl < today.day)
  · rw [if_pos (by
      simp only [Bool.or_eq_true, Bool.and_eq_true, decide_eq_true_eq, Nat.cast_lt,
        Nat.cast_inj]
      exact hroll)]
    rw [if_pos hroll,
      show ((today.year : Int) + 1) = ((today.year + 1 : Nat) : Int) by push_cast; ring,
      mkDateStr_nat]
  · rw [if_neg (by
      simp only [Bool.or_eq_true, Bool.and_eq_true, decide_eq_true_eq, Nat.cast_lt,
        Nat.cast_inj]
      exact hroll)]
    rw [if_neg hroll, mkDateStr_nat]

theorem parse_dmy (today : YMD) (dl ml yl : List Char) (hdne : dl ≠ []) (hmne : ml ≠ [])
    (hyne : yl ≠ []) (hdd : ∀ c ∈ dl, c.isDigit = true) (hmd : ∀ c ∈ ml, c.isDigit = true)
    (hyd : ∀ c ∈ yl, c.isDigit = true) :
    parse_german_date today (String.mk (dl ++ '.' :: (ml ++ '.' :: yl))) =
      (if validYMD
          (if digitsVal yl < 100 then digitsVal yl + 2000 else digitsVal yl)
          (digitsVal ml) (digitsVal dl) = true then
        some (formatYMD
          ⟨if digitsVal yl < 100 then digitsVal yl + 2000 else digitsVal yl,
            digitsVal ml, digitsVal dl⟩)
      else none) := by
  have hchars : ∀ c ∈ dl ++ '.' :: (ml ++ '.' :: yl), c.isDigit = true ∨ c = '.' := by
    intro c hc
    rcases List.mem_append.1 hc with hc | hc
    · exact Or.inl (hdd c hc)
    · rcases List.mem_cons.1 hc with rfl | hc
      · exact Or.inr rfl
      · rcases List.mem_append.1 hc with hc | hc
        · exact Or.inl (hmd c hc)
        · rcases List.mem_cons.1 hc with rfl | hc
          · exact Or.inr rfl
          · exact Or.inl (hyd c hc)
  have hdata : (String.mk (dl ++ '.' :: (ml ++ '.' :: yl))).data
      = dl ++ '.' :: (ml ++ '.' :: yl) := rfl
  have hne : ¬String.mk (dl ++ '.' :: (ml ++ '.' :: yl)) = "" := by
    intro h
    have h2 := congrArg String.data h
    rw [hdata] at h2
    simp at h2
  unfold parse_german_date
  rw [if_neg hne, hdata, if_neg (by rw [dash_contains_false hchars]; simp),
    pyStrip_digits_dots hchars,
    splitOnChar_append (ml ++ '.' :: yl) (dot_not_mem_digits hdd),
    splitOnChar_append yl (dot_not_mem_digits hmd),
    splitOnChar_of_not_mem (dot_not_mem_digits hyd)]
  show (match pyInt dl, pyInt ml, pyInt yl with
    | some day, some month, some yearIn =>
      mkDateStr (if yearIn < 100 then yearIn + 2000 else yearIn) month day
    | _, _, _ => none) = _
  rw [pyInt_digits hdne hdd, pyInt_digits hmne hmd, pyInt_digits hyne hyd]
  show mkDateStr
      (if (digitsVal yl : Int) < 100 then (digitsVal yl : Int) + 2000
       else (digitsVal yl : Int)) (digitsVal ml : Int) (digitsVal dl : Int) = _
  by_cases hy : digitsVal yl < 100
  · rw [if_pos (by exact_mod_cast hy), if_pos hy,
      show ((digitsVal yl : Int) + 2000) = ((digitsVal yl + 2000 : Nat) : Int) by
        push_cast; ring,
      mkDateStr_nat]
  · rw [if_neg (by exact_mod_cast hy), if_neg hy, mkDateStr_nat]

theorem parse_other_none (today : YMD) (s : String) (hsp : strptimeYMD s.data = none)
    (hdot : '.' ∉ s.data) : parse_german_date today s = none := by
  unfold parse_german_date
  by_cases hs : s = ""
  · rw [if_pos hs]
  · rw [if_neg hs]
    have hscrut : (if s.data.contains '-' && decide (s.data.count '-' = 2) then
        strptimeYMD s.data else none) = none := by
      split_ifs with h
      · exact hsp
      · rfl
    rw [hscrut, splitOnChar_of_not_mem (fun hh => hdot (mem_of_mem_pyStrip hh))]

/-- **C8 counterexample**: `"2025-1-3"` is neither canonical `YYYY-MM-DD`
nor a dotted input, so the claim says it yields absent — but `strptime`
accepts unpadded month/day fields and the code returns the string
verbatim. -/
theorem c8_counterexample :
    parse_german_date ⟨2025, 10, 12⟩ "2025-1-3" = some "2025-1-3" ∧
    isCanonicalYMD "2025-1-3" = false ∧
    ("2025-1-3" : String).data.contains '.' = false := by
  refine ⟨by decide, by decide, by decide⟩

/-- **C8 amended**: a validated dashed input — four-digit year, month and
day of one or two digits, calendrically valid — is returned verbatim (so
also unpadded forms, not only the canonical one); a digits-dot-digits
input uses the current year, rolled forward exactly when (month, day)
precedes today's (month, day); a digits-dot-digits-dot-digits input reads
a year below 100 as 2000+Y; in both dotted forms a calendrically invalid
date yields absent; and an input that neither passes the dashed
validation nor contains a dot yields absent — never an error. -/
theorem c8_parse_amended (today : YMD) :
    (∀ s : String, ∀ x : YMD, strptimeYMD s.data = some x →
      parse_german_date today s = some s) ∧
    (∀ dl ml : List Char, dl ≠ [] → ml ≠ [] → (∀ c ∈ dl, c.isDigit = true) →
      (∀ c ∈ ml, c.isDigit = true) →
      parse_german_date today (String.mk (dl ++ '.' :: ml)) =
        (if validYMD
            (if digitsVal ml < today.month ∨
                (digitsVal ml = today.month ∧ digitsVal dl < today.day)
             then today.year + 1 else today.year) (digitsVal ml) (digitsVal dl) = true then
          some (formatYMD
            ⟨if digitsVal ml < today.month ∨
                (digitsVal ml = today.month ∧ digitsVal dl < today.day)
              then today.year + 1 else today.year, digitsVal ml, digitsVal dl⟩)
        else none)) ∧
    (∀ dl ml yl : List Char, dl ≠ [] → ml ≠ [] → yl ≠ [] →
      (∀ c ∈ dl, c.isDigit = true) → (∀ c ∈ ml, c.isDigit = true) →
      (∀ c ∈ yl, c.isDigit = true) →
      parse_german_date today (String.mk (dl ++ '.' :: (ml ++ '.' :: yl))) =
        (if validYMD
            (if digitsVal yl < 100 then digitsVal yl + 2000 else digitsVal yl)
            (digitsVal ml) (digitsVal dl) = true then
          some (formatYMD
            ⟨if digitsVal yl < 100 then digitsVal yl + 2000 else digitsVal yl,
              digitsVal ml, digitsVal dl⟩)
        else none)) ∧
    (∀ s : String, strptimeYMD s.data = none → '.' ∉ s.data →
      parse_german_date today s = none) :=
  ⟨fun s x h => parse_strptime_as_is today s x h,
   fun dl ml h1 h2 h3 h4 => parse_dm today dl ml h1 h2 h3 h4,
   fun dl ml yl h1 h2 h3 h4 h5 h6 => parse_dmy today dl ml yl h1 h2 h3 h4 h5 h6,
   fun s h1 h2 => parse_other_none today s h1 h2⟩

/-- Witness for C8 (amended): `"31.12"` parsed on 2025-10-12. -/
theorem c8_parse_amended_witness :
    (['3', '1'] : List Char) ≠ [] ∧
    parse_german_date ⟨2025, 10, 12⟩ (String.mk (['3', '1'] ++ '.' :: ['1', '2'])) =
      (if validYMD
          (if digitsVal ['1', '2'] < 10 ∨
              (digitsVal ['1', '2'] = 10 ∧ digitsVal ['3', '1'] < 12)
           then 2025 + 1 else 2025) (digitsVal ['1', '2']) (digitsVal ['3', '1']) = true then
        some (formatYMD
          ⟨if digitsVal ['1', '2'] < 10 ∨
              (digitsVal ['1', '2'] = 10 ∧ digitsVal ['3', '1'] < 12)
            then 2025 + 1 else 2025, digitsVal ['1', '2'], digitsVal ['3', '1']⟩)
      else none) :=
  ⟨by decide,
    (c8_parse_amended ⟨2025, 10, 12⟩).2.1 ['3', '1'] ['1', '2'] (by decide) (by decide)
      (by decide) (by decide)⟩

/-! ## C4: no rename operation -/

/-- Number of tasks of a collection reporting a given origin. -/
def originCount (name : String) (l : List Task) : Nat :=
  (l.filter (fun t => t.origin == some name)).length

/-- **C4 counterexample**: in the list-selection dialog over a store whose
only list `"A"` holds one task, no command at all produces the effect the
claim ascribes to "rename A to B" — active context `"B"`, `A`'s former
task stored under `"B"`, and an aggregate load free of origin `"A"`.  The
dialog has no rename operation. -/
theorem c4_counterexample :
    ¬∃ c : SelCmd,
      ((run_list_selection_step ⟨2025, 10, 12⟩
          ⟨[("A", some [⟨"t", false, some 1, none, none, none⟩])], "ALLE", true,
            loadAll ⟨2025, 10, 12⟩ [("A", some [⟨"t", false, some 1, none, none, none⟩])]⟩
          c).current_list_name = "B" ∧
        lookupFS (run_list_selection_step ⟨2025, 10, 12⟩
          ⟨[("A", some [⟨"t", false, some 1, none, none, none⟩])], "ALLE", true,
            loadAll ⟨2025, 10, 12⟩ [("A", some [⟨"t", false, some 1, none, none, none⟩])]⟩
          c).fs "B" = some (some [⟨"t", false, some 1, none, none, none⟩]) ∧
        originCount "A" (loadAll ⟨2025, 10, 12⟩
          (run_list_selection_step ⟨2025, 10, 12⟩
            ⟨[("A", some [⟨"t", false, some 1, none, none, none⟩])], "ALLE", true,
              loadAll ⟨2025, 10, 12⟩ [("A", some [⟨"t", false, some 1, none, none, none⟩])]⟩
            c).fs) = 0) := by
  rintro ⟨c, h1, h2, h3⟩
  cases c with
  | navUp => exact absurd h1 (by decide)
  | navDown => exact absurd h1 (by decide)
  | cancel => exact absurd h1 (by decide)
  | openIdx i =>
    simp only [run_list_selection_step] at h1
    split at h1
    · next hlt =>
      have hmem := List.get_mem
        ("ALLE" :: get_all_lists [("A", some [⟨"t", false, some 1, none, none, none⟩])])
        i hlt
      have h1' : ("ALLE" :: get_all_lists
          [("A", some [⟨"t", false, some 1, none, none, none⟩])]).get ⟨i, hlt⟩ = "B" := h1
      rw [h1'] at hmem
      exact absurd hmem (by decide)
    · exact absurd h1 (by decide)
  | newList nm =>
    simp only [run_list_selection_step] at h2
    by_cases hnm : nm = ""
    · rw [if_pos hnm] at h2
      exact absurd h2 (by decide)
    · rw [if_neg hnm] at h2
      by_cases hsafe : (pyStrip (nm.data.filter Char.isAlphanum)).isEmpty
      · rw [if_pos hsafe] at h2
        exact absurd h2 (by decide)
      · rw [if_neg hsafe] at h2
        have h2' : lookupFS (save_tasks
            [("A", some [⟨"t", false, some 1, none, none, none⟩])]
            (String.mk (pyStrip (nm.data.filter Char.isAlphanum))) true []) "B" =
            some (some [⟨"t", false, some 1, none, none, none⟩]) := h2
        have hsave : save_tasks [("A", some [⟨"t", false, some 1, none, none, none⟩])]
            (String.mk (pyStrip (nm.data.filter Char.isAlphanum))) true [] =
            [("A", some [])] := rfl
        rw [hsave] at h2'
        exact absurd h2' (by decide)

theorem lookupFS_writes_nil :
    ∀ (bs : List (String × List Task)) (fs : FS) (n : String),
      (∀ e ∈ bs, e.2 = ([] : List Task)) →
      lookupFS (bs.foldl (fun acc e => setFS acc (get_list_file_stem e.1) e.2) fs) n =
        lookupFS fs n ∨
      lookupFS (bs.foldl (fun acc e => setFS acc (get_list_file_stem e.1) e.2) fs) n =
        some (some ([] : List Task))
  | [], _, _, _ => Or.inl rfl
  | e :: bs, fs, n, h => by
    rw [List.foldl_cons]
    have he := h e (List.mem_cons_self e bs)
    rcases lookupFS_writes_nil bs (setFS fs (get_list_file_stem e.1) e.2) n
        (fun x hx => h x (List.mem_cons_of_mem _ hx)) with h1 | h1
    · by_cases hn : n = get_list_file_stem e.1
      · right
        rw [h1, hn, he]
        exact lookupFS_setFS_self fs _ _
      · left
        rw [h1]
        exact lookupFS_setFS_ne fs _ _ _ hn
    · exact Or.inr h1

/-- **C4 amended**: the list-selection dialog offers no rename at all; its
commands are cursor movement, open, create and cancel, and after any of
them each stored file either keeps exactly its previous content or is
rewritten to the empty list — in particular no command ever moves a
stored task from one list's file to another, so "rename A to B" is not
expressible. -/
theorem c4_no_rename (today : YMD) (s : AppState) (c : SelCmd) (n : String) :
    lookupFS (run_list_selection_step today s c).fs n = lookupFS s.fs n ∨
    lookupFS (run_list_selection_step today s c).fs n = some (some ([] : List Task)) := by
  cases c with
  | navUp => exact Or.inl rfl
  | navDown => exact Or.inl rfl
  | cancel => exact Or.inl rfl
  | openIdx i =>
    simp only [run_list_selection_step]
    split
    · exact Or.inl rfl
    · exact Or.inl rfl
  | newList nm =>
    simp only [run_list_selection_step]
    by_cases hnm : nm = ""
    · rw [if_pos hnm]
      exact Or.inl rfl
    · rw [if_neg hnm]
      by_cases hsafe : (pyStrip (nm.data.filter Char.isAlphanum)).isEmpty
      · rw [if_pos hsafe]
        exact Or.inl rfl
      · rw [if_neg hsafe]
        show lookupFS (save_tasks s.fs
            (String.mk (pyStrip (nm.data.filter Char.isAlphanum)))
            s.virtual_all_mode []) n = lookupFS s.fs n ∨
          lookupFS (save_tasks s.fs
            (String.mk (pyStrip (nm.data.filter Char.isAlphanum)))
            s.virtual_all_mode []) n = some (some ([] : List Task))
        cases hv : s.virtual_all_mode with
        | false =>
          by_cases hn : n = get_list_file_stem
              (String.mk (pyStrip (nm.data.filter Char.isAlphanum)))
          · right
            rw [hn]
            exact lookupFS_setFS_self s.fs _ _
          · left
            exact lookupFS_setFS_ne s.fs _ _ _ hn
        | true =>
          have hfold : save_tasks s.fs
              (String.mk (pyStrip (nm.data.filter Char.isAlphanum))) true [] =
              (s.fs.map (fun e => (e.1, ([] : List Task)))).foldl
                (fun acc e => setFS acc (get_list_file_stem e.1) e.2) s.fs := rfl
          rw [hfold]
          refine lookupFS_writes_nil _ s.fs n ?_
          intro e he
          obtain ⟨e0, _, he0⟩ := List.mem_map.1 he
          rw [← he0]

end Tasks
